import Mathlib

/-!
Verification development for the history-shrinker program (src/main.rs).

Text is modelled as `List Char`.  A line (as produced by Rust's
`str::lines`) is a `List Char` containing no newline character.  All
regular expressions of the source are fixed concrete patterns; each is
embedded as a specific decidable matcher below, with Rust `regex` crate
semantics: `^`/`$` anchor at the start/end of the whole haystack, `.`
matches any character except `'\n'`, character classes such as `[^ ]`
match every character (including `'\n'`) outside the listed set, and
`Regex::replace` rewrites only the leftmost match.
-/

set_option autoImplicit false

namespace HistoryShrinker

/-- ASCII decimal digit test, as the regex class `[0-9]`. -/
def isAsciiDigit (c : Char) : Bool := 48 ≤ c.toNat && c.toNat ≤ 57

/-- Numeric value of a decimal digit character string, most significant first,
as Rust's `str::parse` computes it on an all-digit string. -/
def digitsToNat (ds : List Char) : Nat := ds.foldl (fun a c => a * 10 + (c.toNat - 48)) 0

/-- The decimal digit character for a value below ten. -/
def digitChar (n : Nat) : Char :=
  if n = 0 then '0' else if n = 1 then '1' else if n = 2 then '2' else if n = 3 then '3'
  else if n = 4 then '4' else if n = 5 then '5' else if n = 6 then '6' else if n = 7 then '7'
  else if n = 8 then '8' else '9'

/-- Decimal digits of a positive number, least significant first; the fuel
argument (any bound on the number itself) makes the recursion structural. -/
def natToCharsAux : Nat → Nat → List Char
  | 0, _ => []
  | fuel + 1, n => if n = 0 then [] else digitChar (n % 10) :: natToCharsAux fuel (n / 10)

/-- Decimal rendering of a number, as Rust's `format!("{n}")`. -/
def natToChars (n : Nat) : List Char :=
  if n = 0 then ['0'] else (natToCharsAux n n).reverse

/-- Rust's `str::parse::<u32>` on an all-digit capture: fails (`None`) on the
empty string or on overflow past `u32::MAX`. -/
def parseU32 (ds : List Char) : Option Nat :=
  if ds.isEmpty then none
  else if digitsToNat ds < 4294967296 then some (digitsToNat ds) else none

/-- Rust's `char::is_whitespace` (the Unicode White_Space property). -/
def isRustWs (c : Char) : Bool :=
  c.toNat = 32 || (9 ≤ c.toNat && c.toNat ≤ 13) || c.toNat = 0x85 || c.toNat = 0xA0 ||
  c.toNat = 0x1680 || (0x2000 ≤ c.toNat && c.toNat ≤ 0x200A) || c.toNat = 0x2028 ||
  c.toNat = 0x2029 || c.toNat = 0x202F || c.toNat = 0x205F || c.toNat = 0x3000

/-- Rust's `str::trim`: strip leading and trailing whitespace. -/
def trim (s : List Char) : List Char :=
  ((s.dropWhile isRustWs).reverse.dropWhile isRustWs).reverse

/-- Strip one trailing carriage return, as `str::lines` does at a `"\r\n"`
line ending. -/
def stripCr (l : List Char) : List Char :=
  if l.getLast? = some '\r' then l.dropLast else l

/-- Worker for `splitLines`; `acc` is the current (unterminated) line. -/
def splitLinesAux : List Char → List Char → List (List Char)
  | [], acc => if acc.isEmpty then [] else [acc]
  | c :: rest, acc =>
    if c = '\n' then stripCr acc :: splitLinesAux rest [] else splitLinesAux rest (acc ++ [c])

/-- Rust's `str::lines`: split at `'\n'` (stripping a preceding `'\r'`),
with no empty line after a final terminator. -/
def splitLines (s : List Char) : List (List Char) := splitLinesAux s []

/-- Join lines, terminating each with `'\n'` (the bash-mode buffer shape). -/
def joinNl (ls : List (List Char)) : List Char := (ls.map (fun l => l ++ ['\n'])).flatten

/-- Join lines with `'\n'` separators (no trailing newline). -/
def linesBody : List (List Char) → List Char
  | [] => []
  | h :: t => h ++ (t.map (fun l => '\n' :: l)).flatten

/-- `hasPrefixL p s`: `p` is a leading segment of `s`. -/
def hasPrefixL : List Char → List Char → Bool
  | [], _ => true
  | _ :: _, [] => false
  | c :: p, d :: s => c = d && hasPrefixL p s

/-- `containsStr p s`: the literal `p` occurs somewhere in `s`
(an unanchored literal regex match). -/
def containsStr (p s : List Char) : Bool :=
  (List.range (s.length + 1)).any (fun i => hasPrefixL p (s.drop i))

/-- Membership in a set of strings (the model of `HashSet::contains`). -/
def memL (x : List Char) (l : List (List Char)) : Bool := l.any (fun y => y = x)

/-- `HashSet::insert`: add unless already present. -/
def insertSet (x : List Char) (l : List (List Char)) : List (List Char) :=
  if memL x l then l else x :: l

/-- One element of a sequential regex pattern: a literal run, a single
character outside a class, a greedy star over a class complement, or a
greedy optional literal character. -/
inductive PatElem where
  | lits (cs : List Char)
  | oneNot (bad : List Char)
  | starNot (bad : List Char)
  | optChar (c : Char)

/-- Match a sequence of pattern elements at the start of `s`, returning the
number of characters matched.  Quantifiers are greedy; in every pattern of
the source a star is the final element, so greedy matching agrees with the
regex crate's leftmost-first semantics. -/
def matchElemsAt : List PatElem → List Char → Option Nat
  | [], _ => some 0
  | .lits cs :: ps, s =>
    if hasPrefixL cs s then (matchElemsAt ps (s.drop cs.length)).map (· + cs.length) else none
  | .oneNot _ :: _, [] => none
  | .oneNot bad :: ps, c :: rest =>
    if bad.contains c then none else (matchElemsAt ps rest).map (· + 1)
  | .starNot bad :: ps, s =>
    (matchElemsAt ps (s.drop (s.takeWhile (fun c => !bad.contains c)).length)).map
      (· + (s.takeWhile (fun c => !bad.contains c)).length)
  | .optChar c :: ps, [] => matchElemsAt ps []
  | .optChar c :: ps, d :: rest =>
    if d = c then (matchElemsAt ps rest).map (· + 1) else matchElemsAt ps (d :: rest)

/-- `Regex::is_match` for a sequential pattern: a match starts at some
position of `s`. -/
def isMatchAnywhere (ps : List PatElem) : List Char → Bool
  | [] => (matchElemsAt ps []).isSome
  | c :: rest => (matchElemsAt ps (c :: rest)).isSome || isMatchAnywhere ps rest

/-- `Regex::replace`: rewrite the leftmost match (if any) with `repl`. -/
def regexReplaceFirst (ps : List PatElem) (repl : List Char) : List Char → List Char
  | [] => match matchElemsAt ps [] with
    | some _ => repl
    | none => []
  | c :: rest => match matchElemsAt ps (c :: rest) with
    | some n => repl ++ (c :: rest).drop n
    | none => c :: regexReplaceFirst ps repl rest

/-- The `REPLACEMENTS` table of the source: redaction rules, in order.
`Authorization: Bearer [^'"]*`, `password="[^$][^ ]*`, `password=[^$][^ ]*`,
`password: ?[^ ]*`, each with its literal replacement. -/
def REPLACEMENTS : List (List PatElem × List Char) :=
  [ ([.lits ("Authorization: Bearer ").data, .starNot ['\'', '"']],
     ("Authorization: Bearer xxx").data),
    ([.lits (("password=").data ++ ['"']), .oneNot ['$'], .starNot [' ']],
     ("password=XXX").data),
    ([.lits ("password=").data, .oneNot ['$'], .starNot [' ']],
     ("password=XXX").data),
    ([.lits ("password:").data, .optChar ' ', .starNot [' ']],
     ("password: XXX").data) ]

/-- `filter_command` of the source: apply each redaction rule in order; a
rule that matches rewrites its leftmost match, a rule that does not match
leaves the text unchanged. -/
def filter_command (command : List Char) : List Char :=
  REPLACEMENTS.foldl
    (fun acc r => if isMatchAnywhere r.1 acc then regexReplaceFirst r.1 r.2 acc else acc)
    command

/-- One exclusion pattern shape of the source's `EXCLUDE_PATTERNS`:
`^lit`, `^lit$`, an unanchored literal, or `lead.*\| *target` (where the
target may contain `.` wildcards, given as pattern elements). -/
inductive ExcludePat where
  | startsW (p : List Char)
  | exact (p : List Char)
  | hasLit (p : List Char)
  | pipePat (lead : List Char) (target : List PatElem)

/-- Match of a `lead.*\| *target` pattern at one start position: the lead,
then any run without `'\n'` (regex `.`), then `'|'`, then spaces, then the
target elements. -/
def pipeMatchAt (lead : List Char) (target : List PatElem) (s : List Char) : Bool :=
  hasPrefixL lead s &&
  (let rest := s.drop lead.length
   (List.range (rest.length + 1)).any (fun j =>
     decide (j ≤ rest.length) &&
     (rest.take j).all (fun c => c ≠ '\n') &&
     (match rest.drop j with
      | '|' :: u =>
        (List.range (u.length + 1)).any (fun k =>
          (u.take k).all (fun c => c = ' ') && (matchElemsAt target (u.drop k)).isSome)
      | _ => false)))

/-- `Regex::is_match` for one exclusion pattern. -/
def excludeMatches (p : ExcludePat) (s : List Char) : Bool :=
  match p with
  | .startsW q => hasPrefixL q s
  | .exact q => s = q
  | .hasLit q => containsStr q s
  | .pipePat lead target =>
    (List.range (s.length + 1)).any (fun i => pipeMatchAt lead target (s.drop i))

/-- The target `pbcopy` as pattern elements. -/
def pbcopyTarget : List PatElem := [.lits ("pbcopy").data]

/-- The target `clip.exe` as pattern elements (`.` is the regex wildcard). -/
def clipExeTarget : List PatElem := [.lits ("clip").data, .oneNot ['\n'], .lits ("exe").data]

/-- The target `base64` as pattern elements. -/
def base64Target : List PatElem := [.lits ("base64").data]

/-- The `EXCLUDE_PATTERNS` table of the source, in order. -/
def EXCLUDE_PATTERNS : List ExcludePat :=
  [ .startsW ("echo ").data,
    .startsW ("en ").data,
    .startsW ("cd ").data,
    .exact ("cd").data,
    .startsW ("ls ").data,
    .exact ("ls").data,
    .startsW ("l ").data,
    .exact ("l").data,
    .startsW ("la ").data,
    .exact ("la").data,
    .startsW ("lt ").data,
    .exact ("lt").data,
    .startsW ("vi ").data,
    .startsW ("md ").data,
    .startsW ("rd ").data,
    .startsW ("mv ").data,
    .startsW ("rm ").data,
    .startsW ("cp ").data,
    .startsW ("ij ").data,
    .startsW ("rr ").data,
    .startsW ("s ").data,
    .startsW ("type ").data,
    .startsW ("sk8s ").data,
    .startsW ("history").data,
    .startsW ("fexpr ").data,
    .startsW ("git add").data,
    .startsW ("git pull").data,
    .startsW ("gpull").data,
    .startsW ("gst").data,
    .startsW ("git status").data,
    .startsW ("git checkout").data,
    .startsW ("git mv").data,
    .startsW ("git rm").data,
    .startsW ("git diff").data,
    .startsW ("git checkout").data,
    .startsW ("8").data,
    .hasLit ("help").data,
    .pipePat ("echo").data pbcopyTarget,
    .pipePat ("en ").data pbcopyTarget,
    .pipePat ("echo").data clipExeTarget,
    .pipePat ("en ").data clipExeTarget,
    .pipePat ("echo").data base64Target,
    .pipePat ("en ").data base64Target ]

/-- `should_exclude_cmd` of the source: some exclusion pattern matches. -/
def should_exclude_cmd (command : List Char) : Bool :=
  EXCLUDE_PATTERNS.any (fun p => excludeMatches p command)

/-- The `PATTERNS_TO_FLAG` table of the source: unanchored literals. -/
def PATTERNS_TO_FLAG : List (List Char) :=
  [("password").data, ("ssh").data, ("secret").data, ("base64").data, ("jasypt").data]

/-- The diagnostic string `format!("Flagged for '{regex}': {command}")`. -/
def flagString (p command : List Char) : List Char :=
  ("Flagged for ").data ++ ['\''] ++ p ++ ['\''] ++ (": ").data ++ command

/-- `flag_command` of the source: on the first matching flag pattern, insert
the diagnostic string into the flagged set. -/
def flag_command (command : List Char) (flagged : List (List Char)) : List (List Char) :=
  match PATTERNS_TO_FLAG.find? (fun p => containsStr p command) with
  | some p => insertSet (flagString p command) flagged
  | none => flagged

/-- UTF-8 encoded size of one character (Rust's `String::len` counts bytes). -/
def charUtf8Size (c : Char) : Nat :=
  if c.toNat < 0x80 then 1 else if c.toNat < 0x800 then 2
  else if c.toNat < 0x10000 then 3 else 4

/-- Rust's `String::len`: UTF-8 byte length. -/
def byteLen (s : List Char) : Nat := s.foldl (fun a c => a + charUtf8Size c) 0

/-- Insert into a `BTreeMultiMap`: entries sorted by key, a new value
appended at the end of its key's vector. -/
def insertMM (k : Nat) (v : List Char) :
    List (Nat × List (List Char)) → List (Nat × List (List Char))
  | [] => [(k, [v])]
  | (k2, vs) :: rest =>
    if k < k2 then (k, [v]) :: (k2, vs) :: rest
    else if k = k2 then (k2, vs ++ [v]) :: rest
    else (k2, vs) :: insertMM k v rest

/-- The mutable state of one run: `command_map` (the ordered output),
`commands_seen` (the dedup set), `big_commands`, `flagged_commands`. -/
structure St where
  command_map : List (Nat × List (List Char))
  commands_seen : List (List Char)
  big_commands : List (Nat × List (List Char))
  flagged_commands : List (List Char)
deriving DecidableEq

/-- The empty initial state. -/
def initSt : St := ⟨[], [], [], []⟩

/-- `add_command` of the source: drop empty text, redact, then gate on the
dedup set and the exclusion list; survivors are recorded in the seen set,
flag report, big-command report (at byte length 200 and up), and the
command map. -/
def add_command (timestamp : Nat) (command : List Char) (st : St) : St :=
  if command.isEmpty then st
  else
    let fc := filter_command command
    if !memL fc st.commands_seen && !should_exclude_cmd fc then
      { command_map := insertMM timestamp fc st.command_map,
        commands_seen := fc :: st.commands_seen,
        big_commands :=
          if 200 ≤ byteLen fc then insertMM (byteLen fc) fc st.big_commands
          else st.big_commands,
        flagged_commands := flag_command fc st.flagged_commands }
    else st

/-- `BASH_TIMESTAMP_REGEX` (`^#[0-9]{8}[0-9]*$`): a `#` followed by eight or
more digits, the whole line. -/
def bashTimestampMatch (l : List Char) : Bool :=
  match l with
  | '#' :: ds => ds.all isAsciiDigit && 8 ≤ ds.length
  | _ => false

/-- `parse_timestamp` of the source.  Outer `none`: the regex does not
match (an ordinary content line).  Inner `none`: the regex matched but the
digits overflow `u32`, which panics in the source (`.parse().unwrap()`);
that panic is propagated as a top-level `none` by the callers below. -/
def parse_timestamp (l : List Char) : Option (Option Nat) :=
  if bashTimestampMatch l then some (parseU32 (l.drop 1)) else none

/-- `ZSH_LINE_REGEX` (`^: ([0-9]{8}[0-9]*):([0-9]*);(.*)$`) as a capture
parser: `": "`, at least eight digits, `':'`, digits, `';'`, the rest of
the line.  Greedy digit runs are forced (a shorter run would place a digit
where `':'` or `';'` must match), so this parse is the regex's unique
match on a newline-free line. -/
def zshCaptures (l : List Char) : Option (List Char × List Char × List Char) :=
  match l with
  | ':' :: ' ' :: rest =>
    let ds := rest.takeWhile isAsciiDigit
    if 8 ≤ ds.length then
      match rest.drop ds.length with
      | ':' :: rest2 =>
        let ds2 := rest2.takeWhile isAsciiDigit
        match rest2.drop ds2.length with
        | ';' :: rest3 => some (ds, ds2, rest3)
        | _ => none
      | _ => none
    else none
  | _ => none

/-- `is_zsh_extended` of the source: some line matches the zsh pattern. -/
def is_zsh_extended (lines : List (List Char)) : Bool :=
  lines.any (fun l => (zshCaptures l).isSome)

/-- Number of continuation lines the source's `while command.ends_with('\\')`
loop consumes from `rest`, starting from assembled text `cmd`. -/
def contCount : List Char → List (List Char) → Nat
  | _, [] => 0
  | cmd, l :: rest =>
    if cmd.getLast? = some '\\' then contCount (cmd ++ '\n' :: l) rest + 1 else 0

/-- The assembled multi-line command after the continuation loop: while the
text ends in a backslash, append a newline and the next raw line. -/
def contAssemble : List Char → List (List Char) → List Char
  | cmd, [] => cmd
  | cmd, l :: rest =>
    if cmd.getLast? = some '\\' then contAssemble (cmd ++ '\n' :: l) rest else cmd

/-- `process_zsh_history` of the source: on each line matching the zsh
pattern, parse the timestamp (`?` propagates overflow as `none`), trim the
captured command, consume backslash continuations, append one newline, and
feed the record to `add_command`; other lines are ignored. -/
def process_zsh_fuel : Nat → List (List Char) → St → Option St
  | _, [], st => some st
  | 0, _ :: _, st => some st
  | fuel + 1, l :: rest, st =>
    match zshCaptures l with
    | none => process_zsh_fuel fuel rest st
    | some (ds, _dur, cap) =>
      match parseU32 ds with
      | none => none
      | some ts =>
        process_zsh_fuel fuel (rest.drop (contCount (trim cap) rest))
          (add_command ts (contAssemble (trim cap) rest ++ ['\n']) st)

/-- `process_zsh_history` of the source, entered with fuel covering every
line (each step consumes at least one line, so the fuel never runs dry). -/
def process_zsh_history (lines : List (List Char)) (st : St) : Option St :=
  process_zsh_fuel lines.length lines st

/-- Worker for `process_bash_history`: the current timestamp starts at 0
and the buffer empty; a marker line flushes the buffer under the previous
timestamp, any other line is appended with a newline; at the end the final
buffer is flushed. -/
def process_bash_history_aux : List (List Char) → Nat → List Char → St → Option St
  | [], ts, cmd, st => some (add_command ts cmd st)
  | l :: rest, ts, cmd, st =>
    match parse_timestamp l with
    | none => process_bash_history_aux rest ts (cmd ++ l ++ ['\n']) st
    | some none => none
    | some (some ts2) => process_bash_history_aux rest ts2 [] (add_command ts cmd st)

/-- `process_bash_history` of the source. -/
def process_bash_history (lines : List (List Char)) (st : St) : Option St :=
  process_bash_history_aux lines 0 [] st

/-- The raw record sequence the bash-mode walk feeds to `add_command`,
including empty buffers (dropped later by `add_command` itself). -/
def extract_bash_aux : List (List Char) → Nat → List Char → Option (List (Nat × List Char))
  | [], ts, cmd => some [(ts, cmd)]
  | l :: rest, ts, cmd =>
    match parse_timestamp l with
    | none => extract_bash_aux rest ts (cmd ++ l ++ ['\n'])
    | some none => none
    | some (some ts2) => (extract_bash_aux rest ts2 []).map (fun recs => (ts, cmd) :: recs)

/-- Records extracted by the bash/plain-mode walk. -/
def extract_bash_records (lines : List (List Char)) : Option (List (Nat × List Char)) :=
  extract_bash_aux lines 0 []

/-- The raw record sequence the zsh-mode walk feeds to `add_command`;
fueled like `process_zsh_fuel`. -/
def extract_zsh_fuel : Nat → List (List Char) → Option (List (Nat × List Char))
  | _, [] => some []
  | 0, _ :: _ => some []
  | fuel + 1, l :: rest =>
    match zshCaptures l with
    | none => extract_zsh_fuel fuel rest
    | some (ds, _dur, cap) =>
      match parseU32 ds with
      | none => none
      | some ts =>
        (extract_zsh_fuel fuel (rest.drop (contCount (trim cap) rest))).map
          (fun recs => (ts, contAssemble (trim cap) rest ++ ['\n']) :: recs)

/-- Records extracted by the zsh/extended-mode walk. -/
def extract_zsh_records (lines : List (List Char)) : Option (List (Nat × List Char)) :=
  extract_zsh_fuel lines.length lines

/-- Feed a record sequence to `add_command` (the normalization pipeline and
aggregator, detached from line walking). -/
def process_records (recs : List (Nat × List Char)) (st : St) : St :=
  recs.foldl (fun s r => add_command r.1 r.2 s) st

/-- The timestamp-marker bytes the emitter writes before one command:
`": <ts>:0;"` in extended format, `"#<ts>\n"` in plain format. -/
def marker (is_zsh : Bool) (ts : Nat) : List Char :=
  if is_zsh then (": ").data ++ natToChars ts ++ (":0;").data
  else '#' :: natToChars ts ++ ['\n']

/-- The output-writing loop of `post_process`: for each timestamp in map
order, for each command in vector order, the marker followed by the
command text (which already ends in a newline). -/
def post_process_output (is_zsh : Bool) (m : List (Nat × List (List Char))) : List Char :=
  (m.map (fun e => (e.2.map (fun c => marker is_zsh e.1 ++ c)).flatten)).flatten

/-- The whole pipeline on file contents: split lines, detect the format,
process with the matching extractor, emit the command map.  `none` models
the run aborting (timestamp overflow). -/
def run_history_shrinker (input : List Char) : Option (List Char) :=
  let lines := splitLines input
  let z := is_zsh_extended lines
  match (if z then process_zsh_history lines initSt else process_bash_history lines initSt) with
  | none => none
  | some st => some (post_process_output z st.command_map)

/-! ### Definitions written from the spec's words, for comparison -/

/-- Modelled from the spec: `replace_all` semantics for one rule — rewrite
every non-overlapping match, scanning left to right.  This is what claim C1
asserts each rule does; the source's `Regex::replace` rewrites only the
leftmost match. -/
def regexReplaceEveryAux (ps : List PatElem) (repl : List Char) : Nat → List Char → List Char
  | _, [] => (match matchElemsAt ps [] with
    | some _ => repl
    | none => [])
  | 0, c :: rest => c :: rest
  | fuel + 1, c :: rest => match matchElemsAt ps (c :: rest) with
    | some (n + 1) => repl ++ regexReplaceEveryAux ps repl fuel ((c :: rest).drop (n + 1))
    | some 0 => repl ++ c :: regexReplaceEveryAux ps repl fuel rest
    | none => c :: regexReplaceEveryAux ps repl fuel rest

/-- Modelled from the spec (continued): scan with fuel covering the whole
text. -/
def regexReplaceEvery (ps : List PatElem) (repl : List Char) (s : List Char) : List Char :=
  regexReplaceEveryAux ps repl s.length s

/-- Modelled from the spec: `filter_command` as claim C1 reads — each rule
replaces all non-overlapping matches. -/
def filter_command_replace_all (command : List Char) : List Char :=
  REPLACEMENTS.foldl
    (fun acc r => if isMatchAnywhere r.1 acc then regexReplaceEvery r.1 r.2 acc else acc)
    command

/-- Stable insertion of a record into a timestamp-sorted list: after every
record with a timestamp at most its own (the spec's emission order). -/
def insertByTimestamp (r : Nat × List Char) : List (Nat × List Char) → List (Nat × List Char)
  | [] => [r]
  | x :: rest => if r.1 < x.1 then r :: x :: rest else x :: insertByTimestamp r rest

/-- Stable sort of records by timestamp, preserving insertion order among
equal timestamps. -/
def stableSortByTimestamp (recs : List (Nat × List Char)) : List (Nat × List Char) :=
  recs.foldl (fun acc r => insertByTimestamp r acc) []

/-- Render a flat record list: marker then command text, for each record. -/
def renderRecords (z : Bool) (recs : List (Nat × List Char)) : List Char :=
  (recs.map (fun r => marker z r.1 ++ r.2)).flatten

/-- `add_command` with the flag-detection step removed (the comparison
variant for the frame claim C9). -/
def add_command_without_flagging (timestamp : Nat) (command : List Char) (st : St) : St :=
  if command.isEmpty then st
  else
    let fc := filter_command command
    if !memL fc st.commands_seen && !should_exclude_cmd fc then
      { command_map := insertMM timestamp fc st.command_map,
        commands_seen := fc :: st.commands_seen,
        big_commands :=
          if 200 ≤ byteLen fc then insertMM (byteLen fc) fc st.big_commands
          else st.big_commands,
        flagged_commands := st.flagged_commands }
    else st

/-- Record processing with flagging removed. -/
def process_records_without_flagging (recs : List (Nat × List Char)) (st : St) : St :=
  recs.foldl (fun s r => add_command_without_flagging r.1 r.2 s) st

/-- The timestamp of the first record whose redacted text is `c`. -/
def firstOccTs (recs : List (Nat × List Char)) (c : List Char) : Option Nat :=
  (recs.find? (fun r => filter_command r.2 = c)).map (fun r => r.1)

/-- How many times text `c` occurs among all values of the map. -/
def mapCountText (c : List Char) (m : List (Nat × List (List Char))) : Nat :=
  (m.map (fun e => e.2.countP (fun x => decide (x = c)))).sum

/-- The value vector stored under key `t` (empty when absent). -/
def valuesAtMM (t : Nat) (m : List (Nat × List (List Char))) : List (List Char) :=
  ((m.find? (fun e => e.1 = t)).map (fun e => e.2)).getD []

/-- All command texts of a map, in emission order. -/
def allCmds (m : List (Nat × List (List Char))) : List (List Char) :=
  (m.map (fun e => e.2)).flatten

/-- Keys strictly ascending (the `BTreeMultiMap` shape invariant). -/
def keysStrictSorted : List (Nat × List (List Char)) → Bool
  | [] => true
  | [_] => true
  | a :: b :: rest => decide (a.1 < b.1) && keysStrictSorted (b :: rest)

/-- Pairwise distinctness of a list of strings. -/
def pairwiseDistinct : List (List Char) → Bool
  | [] => true
  | c :: rest => !memL c rest && pairwiseDistinct rest

/-- The backslash-continuation shape of a stored multi-line command, as the
continuation loop sees it: `b` says whether the text assembled so far ends
in a backslash; the loop must consume exactly the given remaining lines,
ending with text that does not end in a backslash. -/
def contTail : Bool → List (List Char) → Bool
  | b, [] => !b
  | b, l :: tl => b && contTail (decide (('\n' :: l).getLast? = some '\\')) tl

/-- A record of the emitted plain-format output that the second run
re-extracts unchanged: a timestamp of at least eight digits that fits
`u32`, nonempty newline-terminated text free of carriage returns, and no
line of the text resembling a timestamp marker of either format. -/
def bashRecordGoodB (t : Nat) (c : List Char) : Bool :=
  decide (10000000 ≤ t) && decide (t < 4294967296) && !c.isEmpty &&
  (c.getLast? = some '\n') && !c.contains '\r' &&
  (splitLines c).all (fun l => (parse_timestamp l).isNone && (zshCaptures l).isNone)

/-- A record of the emitted extended-format output that the second run
re-extracts unchanged: the bounds and newline termination as in the plain
case, a first line that is its own trim, and the backslash-continuation
chain shape. -/
def zshRecordGoodB (t : Nat) (c : List Char) : Bool :=
  decide (10000000 ≤ t) && decide (t < 4294967296) && !c.isEmpty &&
  (c.getLast? = some '\n') && !c.contains '\r' &&
  (match splitLines c with
   | [] => false
   | h :: tl => (trim h = h) && contTail (decide (h.getLast? = some '\\')) tl)

/-- The flat record sequence of a map, in emission order. -/
def flattenMM (m : List (Nat × List (List Char))) : List (Nat × List Char) :=
  (m.map (fun e => e.2.map (fun c => (e.1, c)))).flatten

/-- No entry of the map has an empty value vector (a `BTreeMultiMap`
invariant: vectors are created nonempty and only appended to). -/
def noEmptyVals (m : List (Nat × List (List Char))) : Bool :=
  m.all (fun e => !e.2.isEmpty)


/-- The physical lines one plain-format record contributes to the emitted
file: its marker line, then the lines of its text. -/
def bashBlockLines (r : Nat × List Char) : List (List Char) :=
  ('#' :: natToChars r.1) :: splitLines r.2

/-- The physical lines one extended-format record contributes to the
emitted file: the marker glued to the first line of its text, then the
remaining (continuation) lines. -/
def zshBlockLines (r : Nat × List Char) : List (List Char) :=
  match splitLines r.2 with
  | [] => [marker true r.1]
  | h :: tl => (marker true r.1 ++ h) :: tl


/-! ### Concrete counterexample and evaluation theorems -/

/-- Claim C1, counterexample: on a command with two `password=` assignments
the source's `filter_command` redacts only the first one; the second,
`password=b`, survives, so the claim that every non-overlapping match is
replaced is false at this input. -/
theorem redaction_replaces_only_first_cex :
    filter_command ("password=a password=b\n").data = ("password=XXX password=b\n").data ∧
    filter_command ("password=a password=b\n").data ≠
      filter_command_replace_all ("password=a password=b\n").data := by
  constructor
  · rfl
  · decide

/-- Claim C2, counterexample: the pipeline maps `"xyzzy plugh\n"` to
`"#0\nxyzzy plugh\n"`, but re-running it on that output yields
`"#0\n#0\nxyzzy plugh\n"` (the emitted `#0` has fewer than eight digits, so
the second run treats it as content), which is not byte-identical. -/
theorem pipeline_not_idempotent_cex :
    run_history_shrinker ("xyzzy plugh\n").data = some (("#0\nxyzzy plugh\n").data) ∧
    run_history_shrinker (("#0\nxyzzy plugh\n").data) =
      some (("#0\n#0\nxyzzy plugh\n").data) ∧
    ("#0\n#0\nxyzzy plugh\n").data ≠ ("#0\nxyzzy plugh\n").data := by
  refine ⟨rfl, rfl, by decide⟩

/-- Claim C3, counterexample: the text `"helpme now\n"` occurs twice among
the extracted records (after redaction), yet zero occurrences survive into
the command map, because it matches the exclusion pattern `help`; so "exactly
one survives" is false without a non-exclusion proviso. -/
theorem dedup_excluded_text_zero_survivors_cex :
    (([(10000000, ("helpme now\n").data), (20000000, ("helpme now\n").data)].map
        (fun r => filter_command r.2)).countP
          (fun x => decide (x = ("helpme now\n").data)) = 2) ∧
    mapCountText (("helpme now\n").data)
      ((process_records [(10000000, ("helpme now\n").data), (20000000, ("helpme now\n").data)]
          initSt).command_map) = 0 := by
  refine ⟨rfl, rfl⟩

/-- Claim C4: the `min_length` option (default 15) is never consulted by the
code; the 7-byte command `"whoami\n"` is shorter than the threshold yet is
kept and emitted verbatim. -/
theorem min_length_threshold_unused :
    run_history_shrinker (("#10000000\nwhoami\n").data) =
      some (("#10000000\nwhoami\n").data) ∧
    byteLen (("whoami\n").data) < 15 := by
  refine ⟨rfl, by decide⟩

/-- Claim C5, counterexample: content lines before the first timestamp marker
are flushed under the initial timestamp 0 when the first marker is seen, not
under the first marker's parsed value 10000000. -/
theorem premarker_content_gets_timestamp_zero_cex :
    extract_bash_records
        [("preamble content xyz").data, ("#10000000").data, ("trailing thing qq").data] =
      some [(0, ("preamble content xyz\n").data), (10000000, ("trailing thing qq\n").data)] ∧
    (∃ st, process_bash_history
        [("preamble content xyz").data, ("#10000000").data, ("trailing thing qq").data]
        initSt = some st ∧
      ("preamble content xyz\n").data ∈ valuesAtMM 0 st.command_map ∧
      ("preamble content xyz\n").data ∉ valuesAtMM 10000000 st.command_map) := by
  refine ⟨rfl, ⟨_, rfl, by decide, by decide⟩⟩

/-- Claim C6, counterexample: the line `": 1000:0;echo \\"` does not match
the extended-format pattern at all (it requires a timestamp of at least
eight digits), so in extended mode the two claimed input lines produce no
record whatsoever, not a record with timestamp 1000. -/
theorem multiline_example_timestamp_too_short_cex :
    extract_zsh_records [(": 1000:0;echo \\").data, ("world").data] = some [] := by
  rfl

/-- Claim C6, amended: with a timestamp of at least eight digits the claimed
reconstruction does happen: `": 10000000:0;echo \\"` followed by `"world"`
yields exactly one record, with timestamp 10000000 and text
`"echo \\" ++ "\n" ++ "world" ++ "\n"` (the backslash is retained, the lines
are joined by a newline, the first captured segment is trimmed, and exactly
one newline is appended). -/
theorem multiline_reconstruction_eight_digit_ts :
    extract_zsh_records [(": 10000000:0;echo \\").data, ("world").data] =
      some [(10000000, ("echo \\\nworld\n").data)] := by
  rfl

/-- Claim C8, counterexample: a plain-format history whose last content line
is empty produces a stored text `"a\n\n"` ending in two newlines, so "ends
with exactly one newline: the second-to-last character is not a newline"
fails for this extractor-produced record. -/
theorem stored_text_two_trailing_newlines_cex :
    extract_bash_records [("#10000000").data, ("a").data, ("").data] =
      some [(0, []), (10000000, ("a\n\n").data)] ∧
    ("a\n\n").data ≠ [] ∧
    (("a\n\n").data).getLast? = some '\n' ∧
    ((("a\n\n").data).dropLast).getLast? = some '\n' := by
  refine ⟨rfl, by decide, rfl, rfl⟩


/-! ### Basic lemmas about the aggregator -/

theorem memL_iff {x : List Char} {l : List (List Char)} : memL x l = true ↔ x ∈ l := by
  simp [memL]

theorem allCmds_cons {e : Nat × List (List Char)} {m : List (Nat × List (List Char))} :
    allCmds (e :: m) = e.2 ++ allCmds m := by
  simp [allCmds]

theorem insertMM_allCmds_mem {c v : List Char} {k : Nat}
    {m : List (Nat × List (List Char))} :
    c ∈ allCmds (insertMM k v m) ↔ c = v ∨ c ∈ allCmds m := by
  induction m with
  | nil => simp [insertMM, allCmds]
  | cons e m ih =>
    match e with
    | (k2, vs) =>
      by_cases h1 : k < k2
      · simp [insertMM, h1, allCmds_cons, allCmds]
      · by_cases h2 : k = k2
        · subst h2
          simp [insertMM, h1, allCmds_cons]
          tauto
        · simp only [insertMM, if_neg h1, if_neg h2, allCmds_cons, List.mem_append, ih]
          tauto

theorem add_command_allCmds {c : List Char} {ts : Nat} {cmd : List Char} {st : St} :
    c ∈ allCmds (add_command ts cmd st).command_map →
    c ∈ allCmds st.command_map ∨
      (c = filter_command cmd ∧ cmd.isEmpty = false ∧
       memL (filter_command cmd) st.commands_seen = false ∧
       should_exclude_cmd (filter_command cmd) = false) := by
  intro h
  by_cases he : cmd.isEmpty
  · left
    simpa [add_command, he] using h
  · by_cases hk : (!memL (filter_command cmd) st.commands_seen &&
      !should_exclude_cmd (filter_command cmd)) = true
    · have h2 : c ∈ allCmds (insertMM ts (filter_command cmd) st.command_map) := by
        simpa [add_command, he, hk] using h
      rcases insertMM_allCmds_mem.mp h2 with h3 | h3
      · right
        simp only [Bool.and_eq_true, Bool.not_eq_true'] at hk
        exact ⟨h3, by simpa using he, hk.1, hk.2⟩
      · exact Or.inl h3
    · left
      simpa [add_command, he, hk] using h

theorem process_records_allCmds {c : List Char} {recs : List (Nat × List Char)} {st : St} :
    c ∈ allCmds (process_records recs st).command_map →
    c ∈ allCmds st.command_map ∨ should_exclude_cmd c = false := by
  induction recs generalizing st with
  | nil => exact fun h => Or.inl h
  | cons r recs ih =>
    intro h
    rcases ih h with h2 | h2
    · rcases add_command_allCmds h2 with h3 | h3
      · exact Or.inl h3
      · exact Or.inr (h3.1 ▸ h3.2.2.2)
    · exact Or.inr h2

/-- Claim C10: the built-in exclusion list contains the unanchored pattern
`help`, so any redacted text containing `"help"` anywhere is excluded, and
consequently no command text stored in the command map (hence in the
output) contains `"help"`, regardless of uniqueness. -/
theorem help_substring_always_excluded :
    (∀ c : List Char, containsStr ("help").data c = true → should_exclude_cmd c = true) ∧
    (∀ (recs : List (Nat × List Char)) (c : List Char),
      c ∈ allCmds ((process_records recs initSt).command_map) →
      containsStr ("help").data c = false) := by
  constructor
  · intro c h
    simp [should_exclude_cmd, EXCLUDE_PATTERNS, excludeMatches, h]
  · intro recs c hmem
    rcases process_records_allCmds hmem with h | h
    · simp [initSt, allCmds] at h
    · by_contra hc
      have h1 : containsStr ("help").data c = true := by
        simpa using hc
      have h2 : should_exclude_cmd c = true := by
        simp [should_exclude_cmd, EXCLUDE_PATTERNS, excludeMatches, h1]
      rw [h] at h2
      exact Bool.false_ne_true h2

/-- Claim C10, witness: the theorem applied at the concrete command
`"show help\n"` (excluded because it contains `help`) and at a concrete run
whose surviving command `"xyzzy plugh\n"` indeed contains no `help`. -/
theorem help_substring_always_excluded_witness :
    should_exclude_cmd ("show help\n").data = true ∧
    containsStr ("help").data ("xyzzy plugh\n").data = false :=
  ⟨help_substring_always_excluded.1 (("show help\n").data) (by decide),
   help_substring_always_excluded.2 [(10000000, ("xyzzy plugh\n").data)]
     (("xyzzy plugh\n").data) (by decide)⟩

theorem insertSet_mem {s x : List Char} {l : List (List Char)} :
    s ∈ insertSet x l → s = x ∨ s ∈ l := by
  intro h
  by_cases hm : memL x l
  · right
    simpa [insertSet, hm] using h
  · rcases (by simpa [insertSet, hm] using h : s = x ∨ s ∈ l) with h2 | h2
    · exact Or.inl h2
    · exact Or.inr h2

theorem insertSet_length {x : List Char} {l : List (List Char)} :
    (insertSet x l).length ≤ l.length + 1 := by
  by_cases hm : memL x l <;> simp [insertSet, hm]

theorem add_command_parallel {ts : Nat} {cmd : List Char} {st st2 : St}
    (h1 : st.command_map = st2.command_map)
    (h2 : st.commands_seen = st2.commands_seen)
    (h3 : st.big_commands = st2.big_commands) :
    (add_command ts cmd st).command_map = (add_command_without_flagging ts cmd st2).command_map ∧
    (add_command ts cmd st).commands_seen =
      (add_command_without_flagging ts cmd st2).commands_seen ∧
    (add_command ts cmd st).big_commands =
      (add_command_without_flagging ts cmd st2).big_commands := by
  by_cases he : cmd.isEmpty
  · unfold add_command add_command_without_flagging
    simp only [he, if_true]
    exact ⟨h1, h2, h3⟩
  · by_cases hk : (!memL (filter_command cmd) st.commands_seen &&
        !should_exclude_cmd (filter_command cmd)) = true
    · have hk2 : (!memL (filter_command cmd) st2.commands_seen &&
          !should_exclude_cmd (filter_command cmd)) = true := by
        rw [← h2]
        exact hk
      unfold add_command add_command_without_flagging
      simp only [he, Bool.false_eq_true, if_false, hk, hk2, if_true]
      exact ⟨by rw [h1], by rw [h2], by rw [h3]⟩
    · have hk2 : ¬ (!memL (filter_command cmd) st2.commands_seen &&
          !should_exclude_cmd (filter_command cmd)) = true := by
        rw [← h2]
        exact hk
      unfold add_command add_command_without_flagging
      simp only [he, Bool.false_eq_true, if_false, hk, hk2]
      exact ⟨h1, h2, h3⟩

theorem process_records_parallel {recs : List (Nat × List Char)} {st st2 : St}
    (h1 : st.command_map = st2.command_map)
    (h2 : st.commands_seen = st2.commands_seen)
    (h3 : st.big_commands = st2.big_commands) :
    (process_records recs st).command_map =
      (process_records_without_flagging recs st2).command_map ∧
    (process_records recs st).commands_seen =
      (process_records_without_flagging recs st2).commands_seen ∧
    (process_records recs st).big_commands =
      (process_records_without_flagging recs st2).big_commands := by
  induction recs generalizing st st2 with
  | nil => exact ⟨h1, h2, h3⟩
  | cons r recs ih =>
    obtain ⟨g1, g2, g3⟩ := @add_command_parallel r.1 r.2 _ _ h1 h2 h3
    exact ih g1 g2 g3

/-- Claim C9: flag detection never affects output content.  Running record
processing with the flag-detection step removed yields the same command map
(hence byte-identical emitted output in either format); and `flag_command`
only ever adds, per command, at most one entry, which is the diagnostic
string built from the first flag pattern matching the command. -/
theorem flagging_is_side_effect_only :
    (∀ (recs : List (Nat × List Char)) (z : Bool),
      (process_records recs initSt).command_map =
        (process_records_without_flagging recs initSt).command_map ∧
      post_process_output z (process_records recs initSt).command_map =
        post_process_output z (process_records_without_flagging recs initSt).command_map) ∧
    (∀ (c : List Char) (fl : List (List Char)) (s : List Char),
      s ∈ flag_command c fl →
      s ∈ fl ∨ ∃ p, PATTERNS_TO_FLAG.find? (fun q => containsStr q c) = some p ∧
        s = flagString p c) ∧
    (∀ (c : List Char) (fl : List (List Char)), (flag_command c fl).length ≤ fl.length + 1) := by
  refine ⟨?_, ?_, ?_⟩
  · intro recs z
    obtain ⟨g1, _, _⟩ := @process_records_parallel recs initSt initSt rfl rfl rfl
    exact ⟨g1, by rw [g1]⟩
  · intro c fl s h
    unfold flag_command at h
    rcases hf : PATTERNS_TO_FLAG.find? (fun q => containsStr q c) with _ | p
    · rw [hf] at h
      exact Or.inl h
    · rw [hf] at h
      simp only at h
      rcases insertSet_mem h with h2 | h2
      · exact Or.inr ⟨p, rfl, h2⟩
      · exact Or.inl h2
  · intro c fl
    unfold flag_command
    rcases hf : PATTERNS_TO_FLAG.find? (fun q => containsStr q c) with _ | p
    · simp
    · simp only
      exact insertSet_length

/-- Claim C9, witness: the theorem applied to the concrete flagged command
`"ssh xyzzy\n"` — the output map is the same as without flagging, and the
single flag entry is the first-pattern diagnostic string. -/
theorem flagging_is_side_effect_only_witness :
    (process_records [(10000000, ("ssh xyzzy\n").data)] initSt).command_map =
      (process_records_without_flagging [(10000000, ("ssh xyzzy\n").data)] initSt).command_map ∧
    (flagString ("ssh").data (("ssh xyzzy\n").data) ∈ ([] : List (List Char)) ∨
      ∃ p, PATTERNS_TO_FLAG.find? (fun q => containsStr q (("ssh xyzzy\n").data)) = some p ∧
        flagString ("ssh").data (("ssh xyzzy\n").data) = flagString p (("ssh xyzzy\n").data)) :=
  ⟨(flagging_is_side_effect_only.1 [(10000000, ("ssh xyzzy\n").data)] false).1,
   flagging_is_side_effect_only.2.1 (("ssh xyzzy\n").data) []
     (flagString ("ssh").data (("ssh xyzzy\n").data)) (by decide)⟩

/-! ### Ordering lemmas: the flattened map is a stable sort by timestamp -/

theorem keysStrictSorted_tail {e : Nat × List (List Char)} {m : List (Nat × List (List Char))}
    (h : keysStrictSorted (e :: m) = true) : keysStrictSorted m = true := by
  cases m with
  | nil => rfl
  | cons b r =>
    simp only [keysStrictSorted, Bool.and_eq_true] at h
    exact h.2

theorem keys_gt_head {e0 : Nat × List (List Char)} {rest : List (Nat × List (List Char))}
    (h : keysStrictSorted (e0 :: rest) = true) : ∀ e ∈ rest, e0.1 < e.1 := by
  induction rest generalizing e0 with
  | nil => simp
  | cons b r ih =>
    simp only [keysStrictSorted, Bool.and_eq_true, decide_eq_true_eq] at h
    intro e he
    rcases List.mem_cons.mp he with rfl | he2
    · exact h.1
    · exact Nat.lt_trans h.1 (@ih b h.2 e he2)

theorem noEmptyVals_tail {e : Nat × List (List Char)} {m : List (Nat × List (List Char))}
    (h : noEmptyVals (e :: m) = true) : noEmptyVals m = true := by
  simp only [noEmptyVals, List.all_cons, Bool.and_eq_true] at h
  exact h.2

theorem insertMM_mem_key {e : Nat × List (List Char)} {k : Nat} {v : List Char}
    {m : List (Nat × List (List Char))} (h : e ∈ insertMM k v m) :
    e.1 = k ∨ ∃ e2 ∈ m, e.1 = e2.1 := by
  induction m with
  | nil =>
    simp only [insertMM, List.mem_singleton] at h
    rw [h]
    exact Or.inl rfl
  | cons b m ih =>
    obtain ⟨k2, vs⟩ := b
    by_cases h1 : k < k2
    · simp only [insertMM, if_pos h1] at h
      rcases List.mem_cons.mp h with rfl | h2
      · exact Or.inl rfl
      · exact Or.inr ⟨e, h2, rfl⟩
    · by_cases h2 : k = k2
      · subst h2
        simp only [insertMM, if_neg h1, if_pos rfl] at h
        rcases List.mem_cons.mp h with rfl | h3
        · exact Or.inr ⟨(k, vs), List.mem_cons_self _ _, rfl⟩
        · exact Or.inr ⟨e, List.mem_cons_of_mem _ h3, rfl⟩
      · simp only [insertMM, if_neg h1, if_neg h2] at h
        rcases List.mem_cons.mp h with rfl | h3
        · exact Or.inr ⟨(k2, vs), List.mem_cons_self _ _, rfl⟩
        · rcases ih h3 with h4 | ⟨e2, he2, h4⟩
          · exact Or.inl h4
          · exact Or.inr ⟨e2, List.mem_cons_of_mem _ he2, h4⟩

theorem insertMM_sorted {k : Nat} {v : List Char} {m : List (Nat × List (List Char))}
    (h : keysStrictSorted m = true) : keysStrictSorted (insertMM k v m) = true := by
  induction m with
  | nil => rfl
  | cons b m ih =>
    obtain ⟨k2, vs⟩ := b
    by_cases h1 : k < k2
    · simp only [insertMM, if_pos h1, keysStrictSorted, Bool.and_eq_true, decide_eq_true_eq]
      exact ⟨h1, h⟩
    · by_cases h2 : k = k2
      · subst h2
        simp only [insertMM, if_neg h1, if_pos rfl]
        cases m with
        | nil => rfl
        | cons b2 r =>
          simp only [keysStrictSorted, Bool.and_eq_true] at h ⊢
          exact h
      · simp only [insertMM, if_neg h1, if_neg h2]
        have h3 : keysStrictSorted m = true := keysStrictSorted_tail h
        have hrec := ih h3
        cases hins : insertMM k v m with
        | nil => rfl
        | cons b2 r =>
          have hb2 : k2 < b2.1 := by
            have hmem : b2 ∈ insertMM k v m := by
              rw [hins]
              exact List.mem_cons_self _ _
            rcases insertMM_mem_key hmem with h4 | ⟨e2, he2, h4⟩
            · omega
            · rw [h4]
              exact keys_gt_head h e2 he2
          rw [hins] at hrec
          simp only [keysStrictSorted, Bool.and_eq_true, decide_eq_true_eq]
          exact ⟨hb2, hrec⟩

theorem insertMM_noEmpty {k : Nat} {v : List Char} {m : List (Nat × List (List Char))}
    (h : noEmptyVals m = true) : noEmptyVals (insertMM k v m) = true := by
  induction m with
  | nil => rfl
  | cons b m ih =>
    obtain ⟨k2, vs⟩ := b
    simp only [noEmptyVals, List.all_cons, Bool.and_eq_true] at h
    by_cases h1 : k < k2
    · simp only [insertMM, if_pos h1]
      simp only [noEmptyVals, List.all_cons, Bool.and_eq_true] at h ⊢
      refine ⟨by simp, h.1, h.2⟩
    · by_cases h2 : k = k2
      · subst h2
        have hstep : insertMM k v ((k, vs) :: m) = (k, vs ++ [v]) :: m := by
          simp [insertMM]
        rw [hstep]
        simp only [noEmptyVals, List.all_cons, Bool.and_eq_true] at h ⊢
        refine ⟨?_, h.2⟩
        cases vs <;> simp
      · simp only [insertMM, if_neg h1, if_neg h2]
        have h4 := ih h.2
        simp only [noEmptyVals, List.all_cons, Bool.and_eq_true] at h4 ⊢
        refine ⟨h.1, h4⟩

theorem flattenMM_cons {e : Nat × List (List Char)} {m : List (Nat × List (List Char))} :
    flattenMM (e :: m) = e.2.map (fun c => (e.1, c)) ++ flattenMM m := by
  simp [flattenMM]

theorem flattenMM_key_mem {r : Nat × List Char} {m : List (Nat × List (List Char))}
    (h : r ∈ flattenMM m) : ∃ e ∈ m, r.1 = e.1 := by
  induction m with
  | nil => simp [flattenMM] at h
  | cons b m ih =>
    rw [flattenMM_cons] at h
    rcases List.mem_append.mp h with h2 | h2
    · obtain ⟨c, _, rfl⟩ := List.mem_map.mp h2
      exact ⟨b, List.mem_cons_self _ _, rfl⟩
    · obtain ⟨e, he, h3⟩ := ih h2
      exact ⟨e, List.mem_cons_of_mem _ he, h3⟩

theorem insertByTimestamp_append_pass {r : Nat × List Char} {l l2 : List (Nat × List Char)}
    (h : ∀ x ∈ l, ¬ r.1 < x.1) :
    insertByTimestamp r (l ++ l2) = l ++ insertByTimestamp r l2 := by
  induction l with
  | nil => rfl
  | cons x l ih =>
    have hx : ¬ r.1 < x.1 := h x (List.mem_cons_self _ _)
    show insertByTimestamp r (x :: (l ++ l2)) = x :: (l ++ insertByTimestamp r l2)
    simp only [insertByTimestamp, if_neg hx]
    rw [ih (fun y hy => h y (List.mem_cons_of_mem _ hy))]

theorem insertByTimestamp_front {r : Nat × List Char} {l : List (Nat × List Char)}
    (h : ∀ x ∈ l, r.1 < x.1) : insertByTimestamp r l = r :: l := by
  cases l with
  | nil => rfl
  | cons x l2 =>
    simp only [insertByTimestamp, if_pos (h x (List.mem_cons_self _ _))]

theorem flattenMM_insertMM {k : Nat} {v : List Char} {m : List (Nat × List (List Char))}
    (hs : keysStrictSorted m = true) (hn : noEmptyVals m = true) :
    flattenMM (insertMM k v m) = insertByTimestamp (k, v) (flattenMM m) := by
  induction m with
  | nil => rfl
  | cons b m ih =>
    obtain ⟨k2, vs⟩ := b
    have hvs : vs ≠ [] := by
      intro hcon
      subst hcon
      simp [noEmptyVals] at hn
    by_cases h1 : k < k2
    · have hstep : insertMM k v ((k2, vs) :: m) = (k, [v]) :: (k2, vs) :: m := by
        simp [insertMM, h1]
      have hfront : insertByTimestamp (k, v) (flattenMM ((k2, vs) :: m)) =
          (k, v) :: flattenMM ((k2, vs) :: m) := by
        refine insertByTimestamp_front ?_
        intro x hx
        obtain ⟨e, he, h3⟩ := flattenMM_key_mem hx
        rcases List.mem_cons.mp he with rfl | he2
        · simpa [h3] using h1
        · have h4 : k2 < e.1 := keys_gt_head hs e he2
          simp only [h3]
          omega
      rw [hstep, flattenMM_cons, hfront]
      simp
    · by_cases h2 : k = k2
      · subst h2
        have hstep : insertMM k v ((k, vs) :: m) = (k, vs ++ [v]) :: m := by
          simp [insertMM]
        have hall : ∀ x ∈ vs.map (fun c => ((k : Nat), c)), ¬ (((k : Nat), v) : Nat × List Char).1 < x.1 := by
          intro x hx
          obtain ⟨c, _, rfl⟩ := List.mem_map.mp hx
          omega
        have hflat : insertByTimestamp (k, v) (flattenMM m) = (k, v) :: flattenMM m := by
          refine insertByTimestamp_front ?_
          intro x hx
          obtain ⟨e, he, h3⟩ := flattenMM_key_mem hx
          have h4 : k < e.1 := keys_gt_head hs e he
          simp only [h3]
          omega
        rw [hstep, flattenMM_cons, flattenMM_cons]
        show (vs ++ [v]).map (fun c => (k, c)) ++ flattenMM m =
          insertByTimestamp (k, v) (vs.map (fun c => (k, c)) ++ flattenMM m)
        rw [insertByTimestamp_append_pass hall, hflat, List.map_append]
        simp
      · have hk2 : k2 < k := by omega
        have hstep : insertMM k v ((k2, vs) :: m) = (k2, vs) :: insertMM k v m := by
          simp [insertMM, h1, h2]
        have hall : ∀ x ∈ vs.map (fun c => ((k2 : Nat), c)), ¬ (((k : Nat), v) : Nat × List Char).1 < x.1 := by
          intro x hx
          obtain ⟨c, _, rfl⟩ := List.mem_map.mp hx
          simp only
          omega
        rw [hstep, flattenMM_cons, flattenMM_cons]
        show vs.map (fun c => (k2, c)) ++ flattenMM (insertMM k v m) =
          insertByTimestamp (k, v) (vs.map (fun c => (k2, c)) ++ flattenMM m)
        rw [insertByTimestamp_append_pass hall,
          ih (keysStrictSorted_tail hs) (noEmptyVals_tail hn)]

theorem post_process_output_eq_render {z : Bool} {m : List (Nat × List (List Char))} :
    post_process_output z m = renderRecords z (flattenMM m) := by
  induction m with
  | nil => rfl
  | cons e m ih =>
    have hL : post_process_output z (e :: m) =
        (e.2.map (fun c => marker z e.1 ++ c)).flatten ++ post_process_output z m := by
      simp [post_process_output]
    have hR : renderRecords z (flattenMM (e :: m)) =
        renderRecords z (e.2.map (fun c => (e.1, c))) ++ renderRecords z (flattenMM m) := by
      rw [flattenMM_cons]
      simp [renderRecords]
    rw [hL, hR, ← ih]
    have hone : renderRecords z (e.2.map (fun c => (e.1, c))) =
        (e.2.map (fun c => marker z e.1 ++ c)).flatten := by
      simp only [renderRecords, List.map_map]
      rfl
    rw [hone]

theorem process_records_cons {r : Nat × List Char} {recs : List (Nat × List Char)} {st : St} :
    process_records (r :: recs) st = process_records recs (add_command r.1 r.2 st) := rfl

theorem add_command_kept {ts : Nat} {cmd : List Char} {st : St}
    (he : cmd.isEmpty = false)
    (hs : memL (filter_command cmd) st.commands_seen = false)
    (hx : should_exclude_cmd (filter_command cmd) = false) :
    add_command ts cmd st =
      { command_map := insertMM ts (filter_command cmd) st.command_map,
        commands_seen := filter_command cmd :: st.commands_seen,
        big_commands :=
          if 200 ≤ byteLen (filter_command cmd) then
            insertMM (byteLen (filter_command cmd)) (filter_command cmd) st.big_commands
          else st.big_commands,
        flagged_commands := flag_command (filter_command cmd) st.flagged_commands } := by
  unfold add_command
  simp [he, hs, hx]

theorem process_records_flatten :
    ∀ (recs : List (Nat × List Char)) (st : St),
      keysStrictSorted st.command_map = true →
      noEmptyVals st.command_map = true →
      (∀ r ∈ recs, r.2.isEmpty = false) →
      (∀ r ∈ recs, should_exclude_cmd (filter_command r.2) = false) →
      (∀ r ∈ recs, memL (filter_command r.2) st.commands_seen = false) →
      pairwiseDistinct (recs.map (fun r => filter_command r.2)) = true →
      flattenMM (process_records recs st).command_map =
        (recs.map (fun r => (r.1, filter_command r.2))).foldl
          (fun acc r => insertByTimestamp r acc) (flattenMM st.command_map) := by
  intro recs
  induction recs with
  | nil =>
    intro st _ _ _ _ _ _
    rfl
  | cons r recs ih =>
    intro st hsort hne hemp hexc hseen hdist
    have her : r.2.isEmpty = false := hemp r (List.mem_cons_self _ _)
    have hxr : should_exclude_cmd (filter_command r.2) = false :=
      hexc r (List.mem_cons_self _ _)
    have hsr : memL (filter_command r.2) st.commands_seen = false :=
      hseen r (List.mem_cons_self _ _)
    simp only [List.map_cons, pairwiseDistinct, Bool.and_eq_true, Bool.not_eq_true'] at hdist
    rw [process_records_cons, add_command_kept her hsr hxr]
    rw [ih _ (insertMM_sorted hsort) (insertMM_noEmpty hne)
      (fun r2 hr2 => hemp r2 (List.mem_cons_of_mem _ hr2))
      (fun r2 hr2 => hexc r2 (List.mem_cons_of_mem _ hr2))
      ?_ hdist.2]
    · rw [flattenMM_insertMM hsort hne]
      simp only [List.map_cons, List.foldl_cons]
    · intro r2 hr2
      have hne2 : filter_command r2.2 ≠ filter_command r.2 := by
        intro hcon
        have hmem : filter_command r.2 ∈ recs.map (fun x => filter_command x.2) := by
          rw [← hcon]
          exact List.mem_map_of_mem _ hr2
        rw [← memL_iff, hdist.1] at hmem
        exact Bool.false_ne_true hmem
      have hb : memL (filter_command r2.2) st.commands_seen = false :=
        hseen r2 (List.mem_cons_of_mem _ hr2)
      simp only [memL, List.any_cons, Bool.or_eq_false_iff, decide_eq_false_iff_not]
      exact ⟨fun hcon => hne2 hcon.symm, by simpa [memL] using hb⟩

/-- Claim C7: the emitter walks the aggregated map in ascending timestamp
order and, within one timestamp, in insertion order, writing for each
command its marker (extended `": <ts>:0;"` with literal duration 0, or plain
`"#<ts>"` on its own line) immediately followed by the command text, with no
other separator: the emitted bytes equal the rendering of the stable
timestamp-sort of the surviving (redacted) records. -/
theorem emitter_ascending_timestamps_insertion_order :
    ∀ (z : Bool) (recs : List (Nat × List Char)),
      (∀ r ∈ recs, r.2.isEmpty = false) →
      (∀ r ∈ recs, should_exclude_cmd (filter_command r.2) = false) →
      pairwiseDistinct (recs.map (fun r => filter_command r.2)) = true →
      post_process_output z (process_records recs initSt).command_map =
        renderRecords z (stableSortByTimestamp (recs.map (fun r => (r.1, filter_command r.2)))) := by
  intro z recs h1 h2 h3
  rw [post_process_output_eq_render]
  rw [process_records_flatten recs initSt rfl rfl h1 h2 (fun r _ => rfl) h3]
  rfl

/-- Claim C7, witness: three distinct-command records at timestamps
[200, 100, 100] emit the two 100-timestamp commands first, in their original
relative order, then the 200-timestamp command. -/
theorem emitter_ascending_timestamps_insertion_order_witness :
    post_process_output false
        (process_records [(200, ("cmdone\n").data), (100, ("cmdtwo\n").data),
          (100, ("cmdthree\n").data)] initSt).command_map =
      renderRecords false (stableSortByTimestamp
        ([(200, ("cmdone\n").data), (100, ("cmdtwo\n").data),
          (100, ("cmdthree\n").data)].map (fun r => (r.1, filter_command r.2)))) ∧
    post_process_output false
        (process_records [(200, ("cmdone\n").data), (100, ("cmdtwo\n").data),
          (100, ("cmdthree\n").data)] initSt).command_map =
      ("#100\ncmdtwo\n#100\ncmdthree\n#200\ncmdone\n").data :=
  ⟨emitter_ascending_timestamps_insertion_order false
      [(200, ("cmdone\n").data), (100, ("cmdtwo\n").data), (100, ("cmdthree\n").data)]
      (by decide) (by decide) (by decide), rfl⟩

/-! ### Deduplication lemmas -/

theorem filter_command_nil : filter_command [] = [] := rfl

theorem valuesAtMM_cons {t : Nat} {e : Nat × List (List Char)}
    {m : List (Nat × List (List Char))} :
    valuesAtMM t (e :: m) = if e.1 = t then e.2 else valuesAtMM t m := by
  by_cases h : e.1 = t <;> simp [valuesAtMM, List.find?_cons, h]

theorem valuesAtMM_eq_nil {t : Nat} {m : List (Nat × List (List Char))}
    (h : ∀ e ∈ m, t ≠ e.1) : valuesAtMM t m = [] := by
  induction m with
  | nil => rfl
  | cons e m ih =>
    rw [valuesAtMM_cons, if_neg (fun hc => h e (List.mem_cons_self _ _) hc.symm)]
    exact ih (fun e2 he2 => h e2 (List.mem_cons_of_mem _ he2))

theorem valuesAtMM_insert_self {k : Nat} {v : List Char} {m : List (Nat × List (List Char))}
    (hs : keysStrictSorted m = true) :
    valuesAtMM k (insertMM k v m) = valuesAtMM k m ++ [v] := by
  induction m with
  | nil => simp [insertMM, valuesAtMM]
  | cons e m ih =>
    obtain ⟨k2, vs⟩ := e
    by_cases h1 : k < k2
    · have hstep : insertMM k v ((k2, vs) :: m) = (k, [v]) :: (k2, vs) :: m := by
        simp [insertMM, h1]
      rw [hstep, valuesAtMM_cons, if_pos rfl, valuesAtMM_cons,
        if_neg (by omega : ¬ k2 = k)]
      rw [valuesAtMM_eq_nil (fun e2 he2 => by
        have h3 := keys_gt_head hs e2 he2
        omega)]
      rfl
    · by_cases h2 : k = k2
      · subst h2
        have hstep : insertMM k v ((k, vs) :: m) = (k, vs ++ [v]) :: m := by
          simp [insertMM]
        rw [hstep, valuesAtMM_cons, if_pos rfl, valuesAtMM_cons, if_pos rfl]
      · have hstep : insertMM k v ((k2, vs) :: m) = (k2, vs) :: insertMM k v m := by
          simp [insertMM, h1, h2]
        rw [hstep, valuesAtMM_cons, if_neg (by omega : ¬ k2 = k), valuesAtMM_cons,
          if_neg (by omega : ¬ k2 = k)]
        exact ih (keysStrictSorted_tail hs)

theorem valuesAtMM_insert_other {t k : Nat} {v : List Char}
    {m : List (Nat × List (List Char))} (ht : t ≠ k) :
    valuesAtMM t (insertMM k v m) = valuesAtMM t m := by
  induction m with
  | nil =>
    have hk : ¬ (k = t) := fun hc => ht hc.symm
    simp [insertMM, valuesAtMM, List.find?_cons, hk]
  | cons e m ih =>
    obtain ⟨k2, vs⟩ := e
    by_cases h1 : k < k2
    · have hstep : insertMM k v ((k2, vs) :: m) = (k, [v]) :: (k2, vs) :: m := by
        simp [insertMM, h1]
      rw [hstep, valuesAtMM_cons, if_neg (fun hc => ht hc.symm)]
    · by_cases h2 : k = k2
      · subst h2
        have hstep : insertMM k v ((k, vs) :: m) = (k, vs ++ [v]) :: m := by
          simp [insertMM]
        rw [hstep, valuesAtMM_cons, if_neg (fun hc => ht hc.symm), valuesAtMM_cons,
          if_neg (fun hc => ht hc.symm)]
      · have hstep : insertMM k v ((k2, vs) :: m) = (k2, vs) :: insertMM k v m := by
          simp [insertMM, h1, h2]
        rw [hstep, valuesAtMM_cons, valuesAtMM_cons]
        by_cases h3 : k2 = t
        · simp [h3]
        · simp only [if_neg h3]
          exact ih

theorem valuesAtMM_insert_mem {c : List Char} {t k : Nat} {v : List Char}
    {m : List (Nat × List (List Char))} (hs : keysStrictSorted m = true)
    (h : c ∈ valuesAtMM t m) : c ∈ valuesAtMM t (insertMM k v m) := by
  by_cases ht : t = k
  · subst ht
    rw [valuesAtMM_insert_self hs]
    exact List.mem_append_left _ h
  · rw [valuesAtMM_insert_other ht]
    exact h

theorem mapCountText_insertMM {c v : List Char} {k : Nat}
    {m : List (Nat × List (List Char))} :
    mapCountText c (insertMM k v m) =
      mapCountText c m + (if v = c then 1 else 0) := by
  induction m with
  | nil =>
    simp only [insertMM, mapCountText, List.map_cons, List.map_nil, List.sum_cons,
      List.sum_nil, List.countP_cons, List.countP_nil]
    by_cases h : v = c <;> simp [h]
  | cons e m ih =>
    obtain ⟨k2, vs⟩ := e
    by_cases h1 : k < k2
    · have hstep : insertMM k v ((k2, vs) :: m) = (k, [v]) :: (k2, vs) :: m := by
        simp [insertMM, h1]
      rw [hstep]
      simp only [mapCountText, List.map_cons, List.sum_cons, List.countP_cons,
        List.countP_nil]
      by_cases h : v = c <;> simp [h] <;> omega
    · by_cases h2 : k = k2
      · subst h2
        have hstep : insertMM k v ((k, vs) :: m) = (k, vs ++ [v]) :: m := by
          simp [insertMM]
        rw [hstep]
        simp only [mapCountText, List.map_cons, List.sum_cons, List.countP_append,
          List.countP_cons, List.countP_nil]
        by_cases h : v = c <;> simp [h] <;> omega
      · have hstep : insertMM k v ((k2, vs) :: m) = (k2, vs) :: insertMM k v m := by
          simp [insertMM, h1, h2]
        rw [hstep]
        simp only [mapCountText, List.map_cons, List.sum_cons]
        simp only [mapCountText] at ih
        omega

theorem add_command_cases (ts : Nat) (cmd : List Char) (st : St) :
    add_command ts cmd st = st ∨
    (cmd.isEmpty = false ∧ memL (filter_command cmd) st.commands_seen = false ∧
     should_exclude_cmd (filter_command cmd) = false) := by
  by_cases he : cmd.isEmpty
  · left
    unfold add_command
    simp [he]
  · by_cases hk : (!memL (filter_command cmd) st.commands_seen &&
      !should_exclude_cmd (filter_command cmd)) = true
    · right
      simp only [Bool.and_eq_true, Bool.not_eq_true'] at hk
      exact ⟨by simpa using he, hk.1, hk.2⟩
    · left
      unfold add_command
      simp [he, hk]

theorem process_records_after_seen :
    ∀ (recs : List (Nat × List Char)) (st : St) (c : List Char) (t : Nat),
      keysStrictSorted st.command_map = true →
      memL c st.commands_seen = true →
      mapCountText c (process_records recs st).command_map =
        mapCountText c st.command_map ∧
      (c ∈ valuesAtMM t st.command_map →
        c ∈ valuesAtMM t (process_records recs st).command_map) := by
  intro recs
  induction recs with
  | nil => exact fun st c t _ _ => ⟨rfl, fun h => h⟩
  | cons r recs ih =>
    intro st c t hsort hseen
    rcases add_command_cases r.1 r.2 st with heq | ⟨he, hs, hx⟩
    · rw [process_records_cons, heq]
      exact ih st c t hsort hseen
    · have hstep := @add_command_kept r.1 _ _ he hs hx
      rw [process_records_cons, hstep]
      have hfc : filter_command r.2 ≠ c := by
        intro hcon
        rw [hcon, hseen] at hs
        simp at hs
      have hsort2 : keysStrictSorted (insertMM r.1 (filter_command r.2) st.command_map)
          = true := insertMM_sorted hsort
      have hseen2 : memL c (filter_command r.2 :: st.commands_seen) = true := by
        simp only [memL, List.any_cons, Bool.or_eq_true]
        right
        simpa [memL] using hseen
      obtain ⟨ihc, ihm⟩ := ih
        { command_map := insertMM r.1 (filter_command r.2) st.command_map,
          commands_seen := filter_command r.2 :: st.commands_seen,
          big_commands := if 200 ≤ byteLen (filter_command r.2) then
              insertMM (byteLen (filter_command r.2)) (filter_command r.2) st.big_commands
            else st.big_commands,
          flagged_commands := flag_command (filter_command r.2) st.flagged_commands }
        c t hsort2 hseen2
      refine ⟨?_, ?_⟩
      · rw [ihc]
        show mapCountText c (insertMM r.1 (filter_command r.2) st.command_map) = _
        rw [mapCountText_insertMM, if_neg hfc]
        omega
      · intro hmem
        exact ihm (valuesAtMM_insert_mem hsort hmem)

theorem process_records_first_occurrence :
    ∀ (recs : List (Nat × List Char)) (st : St) (c : List Char) (t : Nat),
      keysStrictSorted st.command_map = true →
      c ≠ [] → should_exclude_cmd c = false →
      memL c st.commands_seen = false →
      mapCountText c st.command_map = 0 →
      firstOccTs recs c = some t →
      mapCountText c (process_records recs st).command_map = 1 ∧
      c ∈ valuesAtMM t (process_records recs st).command_map := by
  intro recs
  induction recs with
  | nil =>
    intro st c t _ _ _ _ _ hf
    simp [firstOccTs] at hf
  | cons r recs ih =>
    intro st c t hsort hcne hcx hcseen hczero hf
    by_cases hmatch : filter_command r.2 = c
    · have ht : t = r.1 := by
        have hfind : List.find? (fun r2 => decide (filter_command r2.2 = c)) (r :: recs)
            = some r := by
          rw [List.find?_cons]
          simp [hmatch]
        simp only [firstOccTs] at hf
        rw [hfind] at hf
        simp at hf
        exact hf.symm
      subst ht
      have he : r.2.isEmpty = false := by
        cases hrv : r.2 with
        | nil =>
          exfalso
          rw [hrv] at hmatch
          rw [filter_command_nil] at hmatch
          exact hcne hmatch.symm
        | cons a l => rfl
      have hs : memL (filter_command r.2) st.commands_seen = false := by
        rw [hmatch]
        exact hcseen
      have hx : should_exclude_cmd (filter_command r.2) = false := by
        rw [hmatch]
        exact hcx
      have hstep := @add_command_kept r.1 _ _ he hs hx
      rw [process_records_cons, hstep]
      have hsort2 : keysStrictSorted (insertMM r.1 (filter_command r.2) st.command_map)
          = true := insertMM_sorted hsort
      have hseen2 : memL c (filter_command r.2 :: st.commands_seen) = true := by
        simp [memL, List.any_cons, hmatch]
      obtain ⟨ihc, ihm⟩ := process_records_after_seen recs
        { command_map := insertMM r.1 (filter_command r.2) st.command_map,
          commands_seen := filter_command r.2 :: st.commands_seen,
          big_commands := if 200 ≤ byteLen (filter_command r.2) then
              insertMM (byteLen (filter_command r.2)) (filter_command r.2) st.big_commands
            else st.big_commands,
          flagged_commands := flag_command (filter_command r.2) st.flagged_commands }
        c r.1 hsort2 hseen2
      refine ⟨?_, ?_⟩
      · rw [ihc]
        show mapCountText c (insertMM r.1 (filter_command r.2) st.command_map) = 1
        rw [mapCountText_insertMM, if_pos hmatch, hczero]
      · refine ihm ?_
        show c ∈ valuesAtMM r.1 (insertMM r.1 (filter_command r.2) st.command_map)
        rw [valuesAtMM_insert_self hsort, hmatch]
        exact List.mem_append_right _ (List.mem_singleton.mpr rfl)
    · have hf2 : firstOccTs recs c = some t := by
        simpa [firstOccTs, List.find?_cons, hmatch] using hf
      rcases add_command_cases r.1 r.2 st with heq | ⟨he, hs, hx⟩
      · rw [process_records_cons, heq]
        exact ih st c t hsort hcne hcx hcseen hczero hf2
      · have hstep := @add_command_kept r.1 _ _ he hs hx
        rw [process_records_cons, hstep]
        refine ih _ c t (insertMM_sorted hsort) hcne hcx ?_ ?_ hf2
        · simp only [memL, List.any_cons, Bool.or_eq_false_iff, decide_eq_false_iff_not]
          exact ⟨hmatch, by simpa [memL] using hcseen⟩
        · show mapCountText c (insertMM r.1 (filter_command r.2) st.command_map) = 0
          rw [mapCountText_insertMM, if_neg hmatch, hczero]

/-- Claim C3, amended: for every nonempty command text `c` not matching any
exclusion pattern whose post-redaction form occurs at least twice among the
extracted records, exactly one occurrence survives into the command map,
under the timestamp of the first occurrence in file order; excluded or
empty texts instead have zero survivors, as the counterexample shows. -/
theorem dedup_single_survivor_at_first_timestamp :
    ∀ (recs : List (Nat × List Char)) (c : List Char),
      c ≠ [] → should_exclude_cmd c = false →
      2 ≤ (recs.map (fun r => filter_command r.2)).countP (fun x => decide (x = c)) →
      ∃ t, firstOccTs recs c = some t ∧
        mapCountText c (process_records recs initSt).command_map = 1 ∧
        c ∈ valuesAtMM t (process_records recs initSt).command_map := by
  intro recs c hne hx hcount
  have hpos : 0 < (recs.map (fun r => filter_command r.2)).countP
      (fun x => decide (x = c)) := by omega
  rw [List.countP_pos_iff] at hpos
  obtain ⟨x, hxmem, hxc⟩ := hpos
  obtain ⟨r, hr, hrx⟩ := List.mem_map.mp hxmem
  have hex : ∃ r2 ∈ recs, (fun r2 => decide (filter_command r2.2 = c)) r2 = true := by
    refine ⟨r, hr, ?_⟩
    simp only [decide_eq_true_eq]
    rw [hrx]
    exact of_decide_eq_true hxc
  have hsome : (recs.find? (fun r2 => decide (filter_command r2.2 = c))).isSome := by
    rw [List.find?_isSome]
    exact hex
  obtain ⟨r0, hr0⟩ := Option.isSome_iff_exists.mp hsome
  have hfo : firstOccTs recs c = some r0.1 := by
    simp only [firstOccTs, hr0]
    rfl
  refine ⟨r0.1, hfo, ?_⟩
  exact process_records_first_occurrence recs initSt c r0.1 rfl hne hx rfl rfl hfo

/-- Claim C3, witness: the theorem applied to a command occurring twice at
different timestamps — one survivor, at the first timestamp 10000000. -/
theorem dedup_single_survivor_witness :
    (2 ≤ ([(10000000, ("xyzzy plugh\n").data), (20000000, ("xyzzy plugh\n").data)].map
        (fun r => filter_command r.2)).countP
          (fun x => decide (x = ("xyzzy plugh\n").data))) ∧
    (∃ t, firstOccTs [(10000000, ("xyzzy plugh\n").data), (20000000, ("xyzzy plugh\n").data)]
          (("xyzzy plugh\n").data) = some t ∧
      mapCountText (("xyzzy plugh\n").data)
        ((process_records [(10000000, ("xyzzy plugh\n").data),
          (20000000, ("xyzzy plugh\n").data)] initSt).command_map) = 1 ∧
      ("xyzzy plugh\n").data ∈ valuesAtMM t
        ((process_records [(10000000, ("xyzzy plugh\n").data),
          (20000000, ("xyzzy plugh\n").data)] initSt).command_map)) :=
  ⟨by decide,
   dedup_single_survivor_at_first_timestamp
     [(10000000, ("xyzzy plugh\n").data), (20000000, ("xyzzy plugh\n").data)]
     (("xyzzy plugh\n").data) (by decide) (by decide) (by decide)⟩

/-! ### Plain-mode extraction lemmas -/

theorem extract_bash_aux_skip :
    ∀ (pres ls : List (List Char)) (ts : Nat) (buf : List Char),
      (∀ l ∈ pres, parse_timestamp l = none) →
      extract_bash_aux (pres ++ ls) ts buf = extract_bash_aux ls ts (buf ++ joinNl pres) := by
  intro pres
  induction pres with
  | nil =>
    intro ls ts buf _
    simp [joinNl]
  | cons l pres ih =>
    intro ls ts buf hall
    have hl : parse_timestamp l = none := hall l (List.mem_cons_self _ _)
    show extract_bash_aux (l :: (pres ++ ls)) ts buf = _
    simp only [extract_bash_aux, hl]
    rw [ih ls ts (buf ++ l ++ ['\n']) (fun l2 h2 => hall l2 (List.mem_cons_of_mem _ h2))]
    simp [joinNl, List.append_assoc]

/-- Claim C5, amended: content lines before the first timestamp marker
accumulate into the buffer and are flushed, when the first marker arrives,
as one record carrying the initial timestamp 0 — not the marker's parsed
value, which only governs the records that follow. -/
theorem premarker_content_attached_to_zero :
    ∀ (pres : List (List Char)) (m : List Char) (rest : List (List Char)) (t : Nat),
      (∀ l ∈ pres, parse_timestamp l = none) →
      parse_timestamp m = some (some t) →
      extract_bash_records (pres ++ m :: rest) =
        (extract_bash_aux rest t []).map (fun recs => (0, joinNl pres) :: recs) := by
  intro pres m rest t hall hm
  show extract_bash_aux (pres ++ m :: rest) 0 [] = _
  rw [extract_bash_aux_skip pres (m :: rest) 0 [] hall]
  show extract_bash_aux (m :: rest) 0 ([] ++ joinNl pres) = _
  simp only [List.nil_append]
  simp only [extract_bash_aux, hm]

/-- Claim C5, amended, witness: the single pre-marker line `"alpha beta"`
is flushed as the record `(0, "alpha beta\n")` when `"#10000000"` arrives. -/
theorem premarker_content_attached_to_zero_witness :
    extract_bash_records [("alpha beta").data, ("#10000000").data, ("gamma delta").data] =
      (extract_bash_aux [("gamma delta").data] 10000000 []).map
        (fun recs => (0, joinNl [("alpha beta").data]) :: recs) :=
  premarker_content_attached_to_zero [("alpha beta").data] (("#10000000").data)
    [("gamma delta").data] 10000000 (by decide) (by decide)

/-! ### The trailing-newline invariant of extracted records -/

theorem extract_bash_aux_newline :
    ∀ (lines : List (List Char)) (ts : Nat) (buf : List Char)
      (recs : List (Nat × List Char)),
      (buf = [] ∨ buf.getLast? = some '\n') →
      extract_bash_aux lines ts buf = some recs →
      ∀ r ∈ recs, r.2 ≠ [] → r.2.getLast? = some '\n' := by
  intro lines
  induction lines with
  | nil =>
    intro ts buf recs hbuf hex r hr hne
    have h2 : recs = [(ts, buf)] := by
      simpa [extract_bash_aux] using hex.symm
    subst h2
    rcases List.mem_singleton.mp hr with rfl
    rcases hbuf with h3 | h3
    · exact absurd h3 hne
    · exact h3
  | cons l rest ih =>
    intro ts buf recs hbuf hex r hr hne
    rcases hp : parse_timestamp l with _ | op
    · rw [show extract_bash_aux (l :: rest) ts buf
          = extract_bash_aux rest ts (buf ++ l ++ ['\n']) by
        simp only [extract_bash_aux, hp]] at hex
      exact ih ts (buf ++ l ++ ['\n']) recs
        (Or.inr (by rw [List.getLast?_concat])) hex r hr hne
    · rcases op with _ | t2
      · rw [show extract_bash_aux (l :: rest) ts buf = none by
          simp only [extract_bash_aux, hp]] at hex
        exact absurd hex (by simp)
      · rw [show extract_bash_aux (l :: rest) ts buf
            = (extract_bash_aux rest t2 []).map (fun recs2 => (ts, buf) :: recs2) by
          simp only [extract_bash_aux, hp]] at hex
        rcases hex2 : extract_bash_aux rest t2 [] with _ | recs2
        · rw [hex2] at hex
          exact absurd hex (by simp)
        · rw [hex2] at hex
          simp at hex
          subst hex
          rcases List.mem_cons.mp hr with rfl | hr2
          · rcases hbuf with h3 | h3
            · exact absurd h3 hne
            · exact h3
          · exact ih t2 [] recs2 (Or.inl rfl) hex2 r hr2 hne

theorem extract_zsh_fuel_newline :
    ∀ (fuel : Nat) (lines : List (List Char)) (recs : List (Nat × List Char)),
      extract_zsh_fuel fuel lines = some recs →
      ∀ r ∈ recs, r.2.getLast? = some '\n' := by
  intro fuel
  induction fuel with
  | zero =>
    intro lines recs hex r hr
    cases lines with
    | nil =>
      injection hex with h2
      subst h2
      simp at hr
    | cons l rest =>
      injection hex with h2
      subst h2
      simp at hr
  | succ fuel ih =>
    intro lines recs hex r hr
    cases lines with
    | nil =>
      injection hex with h2
      subst h2
      simp at hr
    | cons l rest =>
      rcases hz : zshCaptures l with _ | caps
      · rw [show extract_zsh_fuel (fuel + 1) (l :: rest) = extract_zsh_fuel fuel rest by
          simp only [extract_zsh_fuel, hz]] at hex
        exact ih rest recs hex r hr
      · obtain ⟨ds, dur, cap⟩ := caps
        rcases hu : parseU32 ds with _ | ts
        · rw [show extract_zsh_fuel (fuel + 1) (l :: rest) = none by
            simp only [extract_zsh_fuel, hz, hu]] at hex
          exact absurd hex (by simp)
        · rw [show extract_zsh_fuel (fuel + 1) (l :: rest)
              = (extract_zsh_fuel fuel (rest.drop (contCount (trim cap) rest))).map
                  (fun recs2 => (ts, contAssemble (trim cap) rest ++ ['\n']) :: recs2) by
            simp only [extract_zsh_fuel, hz, hu]] at hex
          rcases hex2 : extract_zsh_fuel fuel (rest.drop (contCount (trim cap) rest))
            with _ | recs2
          · rw [hex2] at hex
            exact absurd hex (by simp)
          · rw [hex2] at hex
            simp at hex
            subst hex
            rcases List.mem_cons.mp hr with rfl | hr2
            · exact List.getLast?_concat _
            · exact ih _ recs2 hex2 r hr2

/-- Claim C8, amended: every non-empty record produced by either extractor
has text ending in a newline character (though not always exactly one: a
trailing empty line produces two, as the counterexample shows). -/
theorem extracted_text_ends_with_newline :
    (∀ (lines : List (List Char)) (recs : List (Nat × List Char)),
      extract_bash_records lines = some recs →
      ∀ r ∈ recs, r.2 ≠ [] → r.2.getLast? = some '\n') ∧
    (∀ (lines : List (List Char)) (recs : List (Nat × List Char)),
      extract_zsh_records lines = some recs →
      ∀ r ∈ recs, r.2 ≠ [] → r.2.getLast? = some '\n') :=
  ⟨fun lines recs hex => extract_bash_aux_newline lines 0 [] recs (Or.inl rfl) hex,
   fun lines recs hex r hr _ => extract_zsh_fuel_newline lines.length lines recs hex r hr⟩

/-- Claim C8, amended, witness: the theorem applied to the counterexample
input, whose double-newline record still ends in a newline, and to a
concrete extended-format extraction. -/
theorem extracted_text_ends_with_newline_witness :
    (("a\n\n").data).getLast? = some '\n' ∧
    (("echo \\\nworld\n").data).getLast? = some '\n' :=
  ⟨extracted_text_ends_with_newline.1 [("#10000000").data, ("a").data, ("").data]
      [(0, []), (10000000, ("a\n\n").data)] (by decide)
      (10000000, ("a\n\n").data) (by decide) (by decide),
   extracted_text_ends_with_newline.2 [(": 10000000:0;echo \\").data, ("world").data]
      [(10000000, ("echo \\\nworld\n").data)] (by decide)
      (10000000, ("echo \\\nworld\n").data) (by decide) (by decide)⟩

/-! ### Redaction lemmas: `Regex::replace` rewrites only the leftmost match -/

theorem hasPrefixL_append_self {p r : List Char} : hasPrefixL p (p ++ r) = true := by
  induction p with
  | nil => rfl
  | cons c p ih => simp [hasPrefixL, ih]

theorem matchElemsAt_lits {cs : List Char} {ps : List PatElem} {tail : List Char} :
    matchElemsAt (.lits cs :: ps) (cs ++ tail) =
      (matchElemsAt ps tail).map (· + cs.length) := by
  have h1 : hasPrefixL cs (cs ++ tail) = true := hasPrefixL_append_self
  simp [matchElemsAt, h1, List.drop_left]

theorem takeWhile_append_stop {p : Char → Bool} {xs ys : List Char} {y : Char}
    (hall : ∀ x ∈ xs, p x = true) (hy : p y = false) :
    (xs ++ y :: ys).takeWhile p = xs := by
  induction xs with
  | nil => simp [List.takeWhile_cons, hy]
  | cons x xs ih =>
    have hx : p x = true := hall x (List.mem_cons_self _ _)
    simp [List.takeWhile_cons, hx, ih (fun z hz => hall z (List.mem_cons_of_mem _ hz))]

theorem matchElemsAt_password_tail {a0 : Char} {av rest2 : List Char}
    (h0 : a0 ≠ '$') (hsp : ∀ x ∈ av, x ≠ ' ') :
    matchElemsAt [.oneNot ['$'], .starNot [' ']] (a0 :: (av ++ ' ' :: rest2)) =
      some (av.length + 1) := by
  have hc : (['$'].contains a0) = false := by simp [h0]
  have ht : (av ++ ' ' :: rest2).takeWhile (fun c => !([' '].contains c)) = av :=
    takeWhile_append_stop (fun x hx => by simp [hsp x hx]) (by simp)
  simp only [matchElemsAt, hc, Bool.false_eq_true, if_false, ht, List.drop_left,
    Option.map_some]
  simp

theorem isMatchAnywhere_of_matchAt {ps : List PatElem} {s : List Char} {n : Nat}
    (h : matchElemsAt ps s = some n) : isMatchAnywhere ps s = true := by
  cases s with
  | nil => simp [isMatchAnywhere, h]
  | cons c rest => simp [isMatchAnywhere, h]

theorem regexReplaceFirst_of_matchAt {ps : List PatElem} {repl s : List Char} {n : Nat}
    (h : matchElemsAt ps s = some n) :
    regexReplaceFirst ps repl s = repl ++ s.drop n := by
  cases s with
  | nil => simp [regexReplaceFirst, h]
  | cons c rest => simp [regexReplaceFirst, h]

/-- Claim C1, amended: each redaction rule rewrites only the leftmost match
of its pattern.  For any command `password=<a0><av> password=<suffix>` (the
first value nonempty and space-free, and the other three rules not
matching), only the first assignment is rewritten: the output is
`password=XXX password=<suffix>` with the second occurrence intact. -/
theorem redaction_rewrites_only_leftmost :
    ∀ (a0 : Char) (av b : List Char),
      a0 ≠ '$' →
      (∀ x ∈ av, x ≠ ' ') →
      isMatchAnywhere [.lits ("Authorization: Bearer ").data, .starNot ['\'', '"']]
        (("password=").data ++ (a0 :: av) ++ ' ' :: (("password=").data ++ b)) = false →
      isMatchAnywhere [.lits (("password=").data ++ ['"']), .oneNot ['$'], .starNot [' ']]
        (("password=").data ++ (a0 :: av) ++ ' ' :: (("password=").data ++ b)) = false →
      isMatchAnywhere [.lits ("password:").data, .optChar ' ', .starNot [' ']]
        (("password=XXX").data ++ ' ' :: (("password=").data ++ b)) = false →
      filter_command
          (("password=").data ++ (a0 :: av) ++ ' ' :: (("password=").data ++ b)) =
        ("password=XXX").data ++ ' ' :: (("password=").data ++ b) := by
  intro a0 av b h0 hsp h1 h2 h4
  have hmatch : matchElemsAt [.lits ("password=").data, .oneNot ['$'], .starNot [' ']]
      (("password=").data ++ (a0 :: av) ++ ' ' :: (("password=").data ++ b)) =
      some ((av.length + 1) + ("password=").data.length) := by
    rw [List.append_assoc]
    rw [matchElemsAt_lits]
    rw [show (a0 :: av) ++ ' ' :: (("password=").data ++ b)
        = a0 :: (av ++ ' ' :: (("password=").data ++ b)) from rfl]
    rw [matchElemsAt_password_tail h0 hsp]
    rfl
  have hdrop : (("password=").data ++ (a0 :: av) ++ ' ' :: (("password=").data ++ b)).drop
      ((av.length + 1) + ("password=").data.length) = ' ' :: (("password=").data ++ b) := by
    have hlen : (av.length + 1) + ("password=").data.length
        = (("password=").data ++ (a0 :: av)).length := by
      simp
    rw [hlen]
    exact List.drop_left _ _
  have hmag : isMatchAnywhere [.lits ("password=").data, .oneNot ['$'], .starNot [' ']]
      (("password=").data ++ (a0 :: av) ++ ' ' :: (("password=").data ++ b)) = true :=
    isMatchAnywhere_of_matchAt hmatch
  have hn1 : ¬ (isMatchAnywhere
      [.lits ("Authorization: Bearer ").data, .starNot ['\'', '"']]
      (("password=").data ++ (a0 :: av) ++ ' ' :: (("password=").data ++ b)) = true) := by
    rw [h1]
    exact Bool.false_ne_true
  have hn2 : ¬ (isMatchAnywhere
      [.lits (("password=").data ++ ['"']), .oneNot ['$'], .starNot [' ']]
      (("password=").data ++ (a0 :: av) ++ ' ' :: (("password=").data ++ b)) = true) := by
    rw [h2]
    exact Bool.false_ne_true
  have hn4 : ¬ (isMatchAnywhere
      [.lits ("password:").data, .optChar ' ', .starNot [' ']]
      (("password=XXX").data ++ ' ' :: (("password=").data ++ b)) = true) := by
    rw [h4]
    exact Bool.false_ne_true
  simp only [filter_command, REPLACEMENTS, List.foldl_cons, List.foldl_nil]
  rw [if_neg hn1, if_neg hn2, if_pos hmag, regexReplaceFirst_of_matchAt hmatch, hdrop,
    if_neg hn4]

/-- Claim C1, amended, witness: the theorem applied at
`"password=a password=b\n"`, reproducing the counterexample output with the
second `password=b` left intact. -/
theorem redaction_rewrites_only_leftmost_witness :
    filter_command
        (("password=").data ++ ('a' :: []) ++ ' ' :: (("password=").data ++ ("b\n").data)) =
      ("password=XXX").data ++ ' ' :: (("password=").data ++ ("b\n").data) :=
  redaction_rewrites_only_leftmost 'a' [] (("b\n").data) (by decide) (by decide)
    (by decide) (by decide) (by decide)

/-! ### Decimal rendering and marker parsing -/

theorem digitChar_isDigit {r : Nat} (h : r < 10) : isAsciiDigit (digitChar r) = true := by
  interval_cases r <;> decide

theorem digitChar_val {r : Nat} (h : r < 10) : (digitChar r).toNat - 48 = r := by
  interval_cases r <;> decide

theorem natToCharsAux_all_digits :
    ∀ (fuel n : Nat), ∀ c ∈ natToCharsAux fuel n, isAsciiDigit c = true := by
  intro fuel
  induction fuel with
  | zero =>
    intro n c hc
    simp [natToCharsAux] at hc
  | succ fuel ih =>
    intro n c hc
    by_cases h : n = 0
    · simp [natToCharsAux, h] at hc
    · simp only [natToCharsAux, if_neg h] at hc
      rcases List.mem_cons.mp hc with rfl | hc2
      · exact digitChar_isDigit (Nat.mod_lt _ (by norm_num))
      · exact ih _ c hc2

theorem natToCharsAux_length :
    ∀ (k fuel n : Nat), n ≤ fuel → 10 ^ k ≤ n → k + 1 ≤ (natToCharsAux fuel n).length := by
  intro k
  induction k with
  | zero =>
    intro fuel n hle h1
    simp only [pow_zero] at h1
    have hn : n ≠ 0 := by omega
    cases fuel with
    | zero => omega
    | succ fuel => simp [natToCharsAux, hn]
  | succ k ih =>
    intro fuel n hle hpow
    have h10 : 1 ≤ 10 ^ (k + 1) := Nat.one_le_pow _ _ (by norm_num)
    have hn : n ≠ 0 := by omega
    cases fuel with
    | zero => omega
    | succ fuel =>
      simp only [natToCharsAux, if_neg hn, List.length_cons]
      have hdiv : 10 ^ k ≤ n / 10 := by
        rw [Nat.le_div_iff_mul_le (by norm_num)]
        calc 10 ^ k * 10 = 10 ^ (k + 1) := by ring
        _ ≤ n := hpow
      have hlt := Nat.div_lt_self (show 0 < n by omega) (show 1 < 10 by norm_num)
      have := ih fuel (n / 10) (by omega) hdiv
      omega

theorem digitsToNat_append {xs : List Char} {d : Char} :
    digitsToNat (xs ++ [d]) = digitsToNat xs * 10 + (d.toNat - 48) := by
  simp [digitsToNat, List.foldl_append]

theorem natToCharsAux_value :
    ∀ (fuel n : Nat), n ≤ fuel → digitsToNat ((natToCharsAux fuel n).reverse) = n := by
  intro fuel
  induction fuel with
  | zero =>
    intro n h
    interval_cases n
    rfl
  | succ fuel ih =>
    intro n hle
    by_cases hn : n = 0
    · subst hn
      rfl
    · simp only [natToCharsAux, if_neg hn, List.reverse_cons]
      rw [digitsToNat_append]
      have hlt := Nat.div_lt_self (show 0 < n by omega) (show 1 < 10 by norm_num)
      rw [ih (n / 10) (by omega)]
      rw [digitChar_val (Nat.mod_lt _ (by norm_num))]
      omega

theorem natToChars_all_digits {n : Nat} : ∀ c ∈ natToChars n, isAsciiDigit c = true := by
  intro c hc
  by_cases h : n = 0
  · simp only [natToChars, if_pos h, List.mem_singleton] at hc
    subst hc
    decide
  · simp only [natToChars, if_neg h, List.mem_reverse] at hc
    exact natToCharsAux_all_digits n n c hc

theorem natToChars_ne_nil {n : Nat} : natToChars n ≠ [] := by
  by_cases h : n = 0
  · simp [natToChars, h]
  · simp only [natToChars, if_neg h]
    intro hcon
    have h8 : 0 + 1 ≤ (natToCharsAux n n).length :=
      natToCharsAux_length 0 n n le_rfl (by simpa using Nat.one_le_iff_ne_zero.mpr h)
    rw [← List.length_reverse, hcon] at h8
    simp at h8

theorem natToChars_length_ge {n : Nat} (h : 10000000 ≤ n) : 8 ≤ (natToChars n).length := by
  have hn : n ≠ 0 := by omega
  simp only [natToChars, if_neg hn, List.length_reverse]
  have := natToCharsAux_length 7 n n le_rfl (by norm_num; omega)
  omega

theorem natToChars_value {n : Nat} : digitsToNat (natToChars n) = n := by
  by_cases h : n = 0
  · subst h
    decide
  · simp only [natToChars, if_neg h]
    exact natToCharsAux_value n n le_rfl

theorem isAsciiDigit_ne {c : Char} (h : isAsciiDigit c = true) :
    c ≠ '\n' ∧ c ≠ '\r' ∧ c ≠ ':' ∧ c ≠ '\\' := by
  refine ⟨?_, ?_, ?_, ?_⟩ <;> intro hcon <;> subst hcon <;> simp [isAsciiDigit] at h

theorem parse_timestamp_marker {t : Nat} (h1 : 10000000 ≤ t) (h2 : t < 4294967296) :
    parse_timestamp ('#' :: natToChars t) = some (some t) := by
  have hall : (natToChars t).all isAsciiDigit = true :=
    List.all_eq_true.mpr (fun c hc => natToChars_all_digits c hc)
  have hlen := natToChars_length_ge h1
  have hmatch : bashTimestampMatch ('#' :: natToChars t) = true := by
    show ((natToChars t).all isAsciiDigit && decide (8 ≤ (natToChars t).length)) = true
    simp [hall, hlen]
  simp only [parse_timestamp, hmatch, if_true]
  show some (parseU32 (natToChars t)) = some (some t)
  have hne : (natToChars t).isEmpty = false := by
    cases hcon : natToChars t with
    | nil => exact absurd hcon natToChars_ne_nil
    | cons a l => rfl
  simp only [parseU32, hne, Bool.false_eq_true, if_false, natToChars_value, if_pos h2]

theorem zshCaptures_not_colon {c : Char} {l : List Char} (h : c ≠ ':') :
    zshCaptures (c :: l) = none := by
  unfold zshCaptures
  split
  · next rest heq =>
    exfalso
    injection heq with h1 _
    exact h h1
  · rfl

theorem zshCaptures_marker {t : Nat} {fl : List Char} (h1 : 10000000 ≤ t) :
    zshCaptures (':' :: ' ' :: (natToChars t ++ ':' :: '0' :: ';' :: fl)) =
      some (natToChars t, ['0'], fl) := by
  have htake : (natToChars t ++ ':' :: '0' :: ';' :: fl).takeWhile isAsciiDigit
      = natToChars t :=
    takeWhile_append_stop (fun x hx => natToChars_all_digits x hx) (by decide)
  have hdrop : (natToChars t ++ ':' :: '0' :: ';' :: fl).drop (natToChars t).length
      = ':' :: '0' :: ';' :: fl := List.drop_left _ _
  have hlen := natToChars_length_ge h1
  show (let ds := (natToChars t ++ ':' :: '0' :: ';' :: fl).takeWhile isAsciiDigit
    if 8 ≤ ds.length then
      match (natToChars t ++ ':' :: '0' :: ';' :: fl).drop ds.length with
      | ':' :: rest2 =>
        let ds2 := rest2.takeWhile isAsciiDigit
        match rest2.drop ds2.length with
        | ';' :: rest3 => some (ds, ds2, rest3)
        | _ => none
      | _ => none
    else none) = some (natToChars t, ['0'], fl)
  simp only [htake, hdrop, if_pos hlen]
  show (let ds2 := ('0' :: ';' :: fl).takeWhile isAsciiDigit
    match ('0' :: ';' :: fl).drop ds2.length with
    | ';' :: rest3 => some (natToChars t, ds2, rest3)
    | _ => none) = some (natToChars t, ['0'], fl)
  have htake2 : ('0' :: ';' :: fl).takeWhile isAsciiDigit = ['0'] := by
    simp [List.takeWhile_cons, isAsciiDigit]
  simp only [htake2]
  rfl

/-! ### Line splitting and rejoining -/

theorem stripCr_eq_self {l : List Char} (h : l.getLast? ≠ some '\r') : stripCr l = l := by
  simp [stripCr, h]

theorem splitLinesAux_append_nl :
    ∀ (a b acc : List Char), a.getLast? = some '\n' →
      splitLinesAux (a ++ b) acc = splitLinesAux a acc ++ splitLines b := by
  intro a
  induction a with
  | nil =>
    intro b acc h
    simp at h
  | cons c a ih =>
    intro b acc h
    cases a with
    | nil =>
      have hc : c = '\n' := by simpa using h
      subst hc
      show splitLinesAux ('\n' :: b) acc = splitLinesAux ['\n'] acc ++ splitLines b
      simp [splitLinesAux, splitLines]
    | cons d a2 =>
      have h2 : (d :: a2).getLast? = some '\n' := by
        rwa [List.getLast?_cons_cons] at h
      by_cases hc : c = '\n'
      · subst hc
        show splitLinesAux ('\n' :: (d :: a2 ++ b)) acc = _
        rw [show splitLinesAux ('\n' :: (d :: a2 ++ b)) acc
            = stripCr acc :: splitLinesAux (d :: a2 ++ b) [] by simp [splitLinesAux]]
        rw [ih b [] h2]
        rw [show splitLinesAux ('\n' :: d :: a2) acc
            = stripCr acc :: splitLinesAux (d :: a2) [] by simp [splitLinesAux]]
        rfl
      · show splitLinesAux (c :: (d :: a2 ++ b)) acc = _
        rw [show splitLinesAux (c :: (d :: a2 ++ b)) acc
            = splitLinesAux (d :: a2 ++ b) (acc ++ [c]) by simp [splitLinesAux, hc]]
        rw [ih b (acc ++ [c]) h2]
        rw [show splitLinesAux (c :: d :: a2) acc
            = splitLinesAux (d :: a2) (acc ++ [c]) by simp [splitLinesAux, hc]]

theorem splitLines_append {a b : List Char} (h : a.getLast? = some '\n') :
    splitLines (a ++ b) = splitLines a ++ splitLines b :=
  splitLinesAux_append_nl a b [] h

theorem splitLinesAux_prepend :
    ∀ (pre s acc : List Char), (∀ c ∈ pre, c ≠ '\n') →
      splitLinesAux (pre ++ s) acc = splitLinesAux s (acc ++ pre) := by
  intro pre
  induction pre with
  | nil =>
    intro s acc _
    simp
  | cons c pre ih =>
    intro s acc hall
    have hc : c ≠ '\n' := hall c (List.mem_cons_self _ _)
    show splitLinesAux (c :: (pre ++ s)) acc = _
    rw [show splitLinesAux (c :: (pre ++ s)) acc
        = splitLinesAux (pre ++ s) (acc ++ [c]) by simp [splitLinesAux, hc]]
    rw [ih s (acc ++ [c]) (fun x hx => hall x (List.mem_cons_of_mem _ hx))]
    simp

theorem joinNl_cons {l : List Char} {ls : List (List Char)} :
    joinNl (l :: ls) = (l ++ ['\n']) ++ joinNl ls := by
  simp [joinNl]

theorem joinNl_splitLinesAux :
    ∀ (s : List Char), s.getLast? = some '\n' → (∀ c ∈ s, c ≠ '\r') →
      ∀ acc : List Char, acc.getLast? ≠ some '\r' →
        joinNl (splitLinesAux s acc) = acc ++ s := by
  intro s
  induction s with
  | nil =>
    intro h _ _ _
    simp at h
  | cons c rest ih =>
    intro hlast hcr acc hacc
    cases rest with
    | nil =>
      have hc : c = '\n' := by simpa using hlast
      subst hc
      show joinNl (splitLinesAux ['\n'] acc) = acc ++ ['\n']
      rw [show splitLinesAux ['\n'] acc = [stripCr acc] by simp [splitLinesAux]]
      rw [stripCr_eq_self hacc]
      simp [joinNl]
    | cons d rest2 =>
      have h2 : (d :: rest2).getLast? = some '\n' := by
        rwa [List.getLast?_cons_cons] at hlast
      by_cases hc : c = '\n'
      · subst hc
        rw [show splitLinesAux ('\n' :: d :: rest2) acc
            = stripCr acc :: splitLinesAux (d :: rest2) [] by simp [splitLinesAux]]
        rw [joinNl_cons, stripCr_eq_self hacc]
        rw [ih h2 (fun x hx => hcr x (List.mem_cons_of_mem _ hx)) [] (by simp)]
        simp
      · rw [show splitLinesAux (c :: d :: rest2) acc
            = splitLinesAux (d :: rest2) (acc ++ [c]) by simp [splitLinesAux, hc]]
        have hcne : c ≠ '\r' := hcr c (List.mem_cons_self _ _)
        rw [ih h2 (fun x hx => hcr x (List.mem_cons_of_mem _ hx)) (acc ++ [c])
          (by rw [List.getLast?_concat]; simp [hcne])]
        simp

theorem joinNl_splitLines {s : List Char} (h1 : s.getLast? = some '\n')
    (h2 : ∀ c ∈ s, c ≠ '\r') : joinNl (splitLines s) = s :=
  joinNl_splitLinesAux s h1 h2 [] (by simp)

theorem joinNl_eq_linesBody :
    ∀ (ls : List (List Char)), ls ≠ [] → joinNl ls = linesBody ls ++ ['\n'] := by
  intro ls
  induction ls with
  | nil => intro h; exact absurd rfl h
  | cons l ls ih =>
    intro _
    cases ls with
    | nil => simp [joinNl, linesBody]
    | cons l2 ls2 =>
      rw [joinNl_cons, ih (by simp)]
      simp [linesBody, joinNl]

theorem splitLinesAux_acc_head :
    ∀ (s : List Char), s ≠ [] → (∀ c ∈ s, c ≠ '\r') →
      ∀ acc : List Char, acc.getLast? ≠ some '\r' →
        ∃ h tl, splitLinesAux s [] = h :: tl ∧ splitLinesAux s acc = (acc ++ h) :: tl := by
  intro s
  induction s with
  | nil => intro h; exact absurd rfl h
  | cons c rest ih =>
    intro _ hcr acc hacc
    by_cases hc : c = '\n'
    · subst hc
      refine ⟨[], splitLinesAux rest [], ?_, ?_⟩
      · simp [splitLinesAux, stripCr]
      · rw [show splitLinesAux ('\n' :: rest) acc
            = stripCr acc :: splitLinesAux rest [] by simp [splitLinesAux]]
        rw [stripCr_eq_self hacc]
        simp
    · cases rest with
      | nil =>
        refine ⟨[c], [], ?_, ?_⟩
        · simp [splitLinesAux, hc]
        · simp [splitLinesAux, hc]
      | cons d rest2 =>
        have hcne : c ≠ '\r' := hcr c (List.mem_cons_self _ _)
        have hlastc : ∀ a : List Char, (a ++ [c]).getLast? ≠ some '\r' := by
          intro a
          rw [List.getLast?_concat]
          simp [hcne]
        obtain ⟨h1, tl1, he1, he2⟩ := ih (by simp)
          (fun x hx => hcr x (List.mem_cons_of_mem _ hx)) [c] (hlastc [])
        obtain ⟨h1b, tl1b, he1b, he2b⟩ := ih (by simp)
          (fun x hx => hcr x (List.mem_cons_of_mem _ hx)) (acc ++ [c]) (hlastc acc)
        rw [he1] at he1b
        refine ⟨c :: h1, tl1, ?_, ?_⟩
        · rw [show splitLinesAux (c :: d :: rest2) []
              = splitLinesAux (d :: rest2) [c] by simp [splitLinesAux, hc]]
          exact he2
        · rw [show splitLinesAux (c :: d :: rest2) acc
              = splitLinesAux (d :: rest2) (acc ++ [c]) by simp [splitLinesAux, hc]]
          rw [he2b]
          have hh : h1b = h1 ∧ tl1b = tl1 := by
            constructor
            · exact ((List.cons.injEq _ _ _ _ ▸ he1b).1).symm
            · exact ((List.cons.injEq _ _ _ _ ▸ he1b).2).symm
          rw [hh.1, hh.2]
          simp

/-! ### Reprocessing identity: normalized records rebuild the same map -/

theorem memL_append {x : List Char} {l1 l2 : List (List Char)} :
    memL x (l1 ++ l2) = (memL x l1 || memL x l2) := by
  simp [memL, List.any_append]

theorem pairwiseDistinct_append {xs ys : List (List Char)}
    (h : pairwiseDistinct (xs ++ ys) = true) :
    pairwiseDistinct xs = true ∧ pairwiseDistinct ys = true ∧
    ∀ x ∈ xs, memL x ys = false := by
  induction xs with
  | nil => exact ⟨rfl, h, by simp⟩
  | cons x xs ih =>
    rw [show (x :: xs) ++ ys = x :: (xs ++ ys) from rfl] at h
    simp only [pairwiseDistinct, Bool.and_eq_true, Bool.not_eq_true'] at h
    obtain ⟨hm, hrest⟩ := h
    obtain ⟨pdxs, pdys, hcross⟩ := ih hrest
    rw [memL_append, Bool.or_eq_false_iff] at hm
    refine ⟨?_, pdys, ?_⟩
    · simp only [pairwiseDistinct, Bool.and_eq_true, Bool.not_eq_true']
      exact ⟨hm.1, pdxs⟩
    · intro y hy
      rcases List.mem_cons.mp hy with rfl | hy2
      · exact hm.2
      · exact hcross y hy2

theorem add_command_empty {ts : Nat} {st : St} : add_command ts [] st = st := by
  unfold add_command
  simp

theorem process_records_append {l1 l2 : List (Nat × List Char)} {st : St} :
    process_records (l1 ++ l2) st = process_records l2 (process_records l1 st) := by
  simp [process_records, List.foldl_append]

theorem insertMM_append_new {k : Nat} {v : List Char} {Mdone : List (Nat × List (List Char))}
    (h : ∀ e ∈ Mdone, e.1 < k) : insertMM k v Mdone = Mdone ++ [(k, [v])] := by
  induction Mdone with
  | nil => rfl
  | cons e rest ih =>
    have he : e.1 < k := h e (List.mem_cons_self _ _)
    obtain ⟨k2, vs⟩ := e
    simp only at he
    rw [show insertMM k v ((k2, vs) :: rest) = (k2, vs) :: insertMM k v rest by
      simp only [insertMM, if_neg (by omega : ¬ k < k2), if_neg (by omega : ¬ k = k2)]]
    rw [ih (fun e2 he2 => h e2 (List.mem_cons_of_mem _ he2))]
    rfl

theorem insertMM_append_group {k : Nat} {v : List Char} {gs : List (List Char)}
    {Mdone : List (Nat × List (List Char))} (h : ∀ e ∈ Mdone, e.1 < k) :
    insertMM k v (Mdone ++ [(k, gs)]) = Mdone ++ [(k, gs ++ [v])] := by
  induction Mdone with
  | nil =>
    simp only [List.nil_append]
    simp [insertMM]
  | cons e rest ih =>
    have he : e.1 < k := h e (List.mem_cons_self _ _)
    obtain ⟨k2, vs⟩ := e
    simp only at he
    rw [show (((k2, vs) :: rest) ++ [(k, gs)]) = (k2, vs) :: (rest ++ [(k, gs)]) from rfl]
    rw [show insertMM k v ((k2, vs) :: (rest ++ [(k, gs)]))
        = (k2, vs) :: insertMM k v (rest ++ [(k, gs)]) by
      simp only [insertMM, if_neg (by omega : ¬ k < k2), if_neg (by omega : ¬ k = k2)]]
    rw [ih (fun e2 he2 => h e2 (List.mem_cons_of_mem _ he2))]
    rfl

theorem reprocess_group :
    ∀ (vs : List (List Char)) (k : Nat) (Mdone : List (Nat × List (List Char)))
      (gs : List (List Char)) (st : St),
      st.command_map = Mdone ++ [(k, gs)] →
      (∀ e ∈ Mdone, e.1 < k) →
      (∀ c ∈ vs, c.isEmpty = false ∧ filter_command c = c ∧
        should_exclude_cmd c = false ∧ memL c st.commands_seen = false) →
      pairwiseDistinct vs = true →
      (process_records (vs.map (fun c => (k, c))) st).command_map =
        Mdone ++ [(k, gs ++ vs)] ∧
      (process_records (vs.map (fun c => (k, c))) st).commands_seen =
        vs.reverse ++ st.commands_seen := by
  intro vs
  induction vs with
  | nil =>
    intro k Mdone gs st hmap _ _ _
    refine ⟨by simpa using hmap, by simp [process_records]⟩
  | cons v vs ih =>
    intro k Mdone gs st hmap hkeys hall hdist
    obtain ⟨hve, hvf, hvx, hvs⟩ := hall v (List.mem_cons_self _ _)
    have hvs2 : memL (filter_command v) st.commands_seen = false := by rwa [hvf]
    have hvx2 : should_exclude_cmd (filter_command v) = false := by rwa [hvf]
    have hstep := @add_command_kept k v st hve hvs2 hvx2
    rw [hvf] at hstep
    simp only [pairwiseDistinct, Bool.and_eq_true, Bool.not_eq_true'] at hdist
    have hunfold : process_records (((k, v) : Nat × List Char) :: vs.map (fun c => (k, c))) st
        = process_records (vs.map (fun c => (k, c))) (add_command k v st) := rfl
    rw [List.map_cons, hunfold, hstep]
    have hmap2 : insertMM k v st.command_map = Mdone ++ [(k, gs ++ [v])] := by
      rw [hmap]
      exact insertMM_append_group hkeys
    obtain ⟨ih1, ih2⟩ := ih k Mdone (gs ++ [v])
      { command_map := insertMM k v st.command_map,
        commands_seen := v :: st.commands_seen,
        big_commands := if 200 ≤ byteLen v then insertMM (byteLen v) v st.big_commands
          else st.big_commands,
        flagged_commands := flag_command v st.flagged_commands }
      hmap2 hkeys
      (by
        intro c hc
        obtain ⟨h1, h2, h3, h4⟩ := hall c (List.mem_cons_of_mem _ hc)
        refine ⟨h1, h2, h3, ?_⟩
        show memL c (v :: st.commands_seen) = false
        have hcv : c ≠ v := by
          intro hcon
          subst hcon
          have h5 : memL c vs = true := memL_iff.mpr hc
          rw [hdist.1] at h5
          exact Bool.false_ne_true h5
        simp only [memL, List.any_cons, Bool.or_eq_false_iff, decide_eq_false_iff_not]
        exact ⟨fun hcon => hcv hcon.symm, by simpa [memL] using h4⟩)
      hdist.2
    refine ⟨?_, ?_⟩
    · rw [ih1]
      simp
    · rw [ih2]
      simp

theorem reprocess_all :
    ∀ (M Mdone : List (Nat × List (List Char))) (st : St),
      st.command_map = Mdone →
      (∀ e ∈ Mdone, ∀ e2 ∈ M, e.1 < e2.1) →
      keysStrictSorted M = true →
      noEmptyVals M = true →
      (∀ c ∈ allCmds M, c.isEmpty = false ∧ filter_command c = c ∧
        should_exclude_cmd c = false ∧ memL c st.commands_seen = false) →
      pairwiseDistinct (allCmds M) = true →
      (process_records (flattenMM M) st).command_map = Mdone ++ M := by
  intro M
  induction M with
  | nil =>
    intro Mdone st hmap _ _ _ _ _
    simpa [flattenMM, process_records] using hmap
  | cons e M ih =>
    intro Mdone st hmap hbelow hsort hne hall hdist
    obtain ⟨k, vs⟩ := e
    have hvs : vs ≠ [] := by
      intro hcon
      subst hcon
      simp [noEmptyVals] at hne
    obtain ⟨v0, vs2, rfl⟩ := List.exists_cons_of_ne_nil hvs
    have hallC : allCmds ((k, v0 :: vs2) :: M) = (v0 :: vs2) ++ allCmds M := allCmds_cons
    rw [hallC] at hall hdist
    obtain ⟨pdvs, pdM, hcross⟩ := pairwiseDistinct_append hdist
    obtain ⟨h0e, h0f, h0x, h0s⟩ := hall v0 (by simp)
    have hkeys : ∀ e2 ∈ Mdone, e2.1 < k :=
      fun e2 he2 => hbelow e2 he2 (k, v0 :: vs2) (List.mem_cons_self _ _)
    rw [flattenMM_cons, process_records_append]
    have h0s2 : memL (filter_command v0) st.commands_seen = false := by rwa [h0f]
    have h0x2 : should_exclude_cmd (filter_command v0) = false := by rwa [h0f]
    have hstep := @add_command_kept k v0 st h0e h0s2 h0x2
    rw [h0f] at hstep
    have hunfold : process_records (((v0 :: vs2).map (fun c => ((k : Nat), c)))) st
        = process_records (vs2.map (fun c => (k, c))) (add_command k v0 st) := rfl
    rw [hunfold, hstep]
    have hmap2 : insertMM k v0 st.command_map = Mdone ++ [(k, [v0])] := by
      rw [hmap]
      exact insertMM_append_new hkeys
    obtain ⟨g1, g2⟩ := reprocess_group vs2 k Mdone [v0]
      { command_map := insertMM k v0 st.command_map,
        commands_seen := v0 :: st.commands_seen,
        big_commands := if 200 ≤ byteLen v0 then insertMM (byteLen v0) v0 st.big_commands
          else st.big_commands,
        flagged_commands := flag_command v0 st.flagged_commands }
      hmap2 hkeys
      (by
        intro c hc
        obtain ⟨h1, h2, h3, h4⟩ := hall c (by simp [hc])
        refine ⟨h1, h2, h3, ?_⟩
        show memL c (v0 :: st.commands_seen) = false
        have hcv : c ≠ v0 := by
          intro hcon
          subst hcon
          simp only [pairwiseDistinct, Bool.and_eq_true, Bool.not_eq_true'] at pdvs
          have h5 : memL c vs2 = true := memL_iff.mpr hc
          rw [pdvs.1] at h5
          exact Bool.false_ne_true h5
        simp only [memL, List.any_cons, Bool.or_eq_false_iff, decide_eq_false_iff_not]
        exact ⟨fun hcon => hcv hcon.symm, by simpa [memL] using h4⟩)
      (by
        simp only [pairwiseDistinct, Bool.and_eq_true, Bool.not_eq_true'] at pdvs
        exact pdvs.2)
    have hfin := ih (Mdone ++ [(k, [v0] ++ vs2)])
      (process_records (vs2.map (fun c => (k, c)))
        { command_map := insertMM k v0 st.command_map,
          commands_seen := v0 :: st.commands_seen,
          big_commands := if 200 ≤ byteLen v0 then insertMM (byteLen v0) v0 st.big_commands
            else st.big_commands,
          flagged_commands := flag_command v0 st.flagged_commands })
      g1
      (by
        intro e2 he2 e3 he3
        rcases List.mem_append.mp he2 with h5 | h5
        · exact hbelow e2 h5 e3 (List.mem_cons_of_mem _ he3)
        · rcases List.mem_singleton.mp h5 with rfl
          exact keys_gt_head hsort e3 he3)
      (keysStrictSorted_tail hsort)
      (noEmptyVals_tail hne)
      (by
        intro c hc
        obtain ⟨h1, h2, h3, h4⟩ := hall c (by simp [hc])
        refine ⟨h1, h2, h3, ?_⟩
        rw [g2]
        have hnv : c ∉ ((v0 :: vs2) : List (List Char)) := by
          intro hcon
          have h5 : memL c (allCmds M) = false := hcross c hcon
          rw [memL_iff.symm] at hc
          rw [h5] at hc
          exact Bool.false_ne_true hc
        rw [← Bool.not_eq_true, memL_iff]
        simp only [List.mem_append, List.mem_reverse, List.mem_cons]
        push_neg
        refine ⟨?_, ?_, ?_⟩
        · intro hcon
          exact hnv (List.mem_cons_of_mem _ hcon)
        · intro hcon
          exact hnv (hcon ▸ List.mem_cons_self _ _)
        · intro hcon
          have h6 : memL c st.commands_seen = true := memL_iff.mpr hcon
          rw [h4] at h6
          exact Bool.false_ne_true h6)
      pdM
    rw [hfin]
    simp

/-! ### Plain-mode round trip -/

theorem mem_of_getLast?_eq {l : List Char} {a : Char} (h : l.getLast? = some a) : a ∈ l := by
  cases l with
  | nil => simp at h
  | cons c rest =>
    rw [List.getLast?_eq_getLast_of_ne_nil (by simp)] at h
    have h2 : a = (c :: rest).getLast (by simp) := (Option.some_inj.mp h).symm
    rw [h2]
    exact List.getLast_mem _

theorem ne_nil_of_getLast?_nl {l : List Char} (h : l.getLast? = some '\n') : l ≠ [] := by
  intro hcon
  subst hcon
  simp at h

theorem process_bash_eq :
    ∀ (lines : List (List Char)) (ts : Nat) (cmd : List Char) (st : St),
      process_bash_history_aux lines ts cmd st =
        (extract_bash_aux lines ts cmd).map (fun recs => process_records recs st) := by
  intro lines
  induction lines with
  | nil =>
    intro ts cmd st
    rfl
  | cons l rest ih =>
    intro ts cmd st
    rcases hp : parse_timestamp l with _ | op
    · rw [show process_bash_history_aux (l :: rest) ts cmd st
          = process_bash_history_aux rest ts (cmd ++ l ++ ['\n']) st by
        simp only [process_bash_history_aux, hp]]
      rw [show extract_bash_aux (l :: rest) ts cmd
          = extract_bash_aux rest ts (cmd ++ l ++ ['\n']) by
        simp only [extract_bash_aux, hp]]
      exact ih ts (cmd ++ l ++ ['\n']) st
    · rcases op with _ | t2
      · rw [show process_bash_history_aux (l :: rest) ts cmd st = none by
          simp only [process_bash_history_aux, hp]]
        rw [show extract_bash_aux (l :: rest) ts cmd = none by
          simp only [extract_bash_aux, hp]]
        rfl
      · rw [show process_bash_history_aux (l :: rest) ts cmd st
            = process_bash_history_aux rest t2 [] (add_command ts cmd st) by
          simp only [process_bash_history_aux, hp]]
        rw [show extract_bash_aux (l :: rest) ts cmd
            = (extract_bash_aux rest t2 []).map (fun recs => (ts, cmd) :: recs) by
          simp only [extract_bash_aux, hp]]
        rw [ih t2 [] (add_command ts cmd st)]
        cases extract_bash_aux rest t2 [] <;> rfl

theorem marker_false_append {t : Nat} {c : List Char} :
    marker false t ++ c = ('#' :: natToChars t) ++ ('\n' :: c) := by
  simp [marker]

theorem marker_line_no_nl {t : Nat} : ∀ x ∈ '#' :: natToChars t, x ≠ '\n' := by
  intro x hx
  rcases List.mem_cons.mp hx with rfl | h2
  · decide
  · exact (isAsciiDigit_ne (natToChars_all_digits x h2)).1

theorem marker_line_last_not_cr {t : Nat} : ('#' :: natToChars t).getLast? ≠ some '\r' := by
  rw [show ('#' :: natToChars t) = ['#'] ++ natToChars t from rfl]
  rw [List.getLast?_append_of_ne_nil _ natToChars_ne_nil]
  intro hcon
  have hmem := mem_of_getLast?_eq hcon
  exact (isAsciiDigit_ne (natToChars_all_digits _ hmem)).2.1 rfl

theorem splitLines_marker_block {t : Nat} {c : List Char} :
    splitLines (marker false t ++ c) = ('#' :: natToChars t) :: splitLines c := by
  rw [marker_false_append]
  show splitLinesAux (('#' :: natToChars t) ++ ('\n' :: c)) [] = _
  rw [splitLinesAux_prepend _ _ [] marker_line_no_nl]
  rw [show splitLinesAux ('\n' :: c) ([] ++ ('#' :: natToChars t))
      = stripCr ('#' :: natToChars t) :: splitLinesAux c [] by simp [splitLinesAux]]
  rw [stripCr_eq_self marker_line_last_not_cr]
  rfl

theorem splitLines_renderB :
    ∀ (pairs : List (Nat × List Char)),
      (∀ r ∈ pairs, r.2.getLast? = some '\n') →
      splitLines (renderRecords false pairs) = (pairs.map bashBlockLines).flatten := by
  intro pairs
  induction pairs with
  | nil =>
    intro _
    rfl
  | cons r rest ih =>
    intro hall
    have hr : r.2.getLast? = some '\n' := hall r (List.mem_cons_self _ _)
    have hrender : renderRecords false (r :: rest)
        = (marker false r.1 ++ r.2) ++ renderRecords false rest := by
      simp [renderRecords]
    rw [hrender]
    have hend : (marker false r.1 ++ r.2).getLast? = some '\n' := by
      rw [List.getLast?_append_of_ne_nil _ (ne_nil_of_getLast?_nl hr)]
      exact hr
    rw [splitLines_append hend, splitLines_marker_block,
      ih (fun r2 h2 => hall r2 (List.mem_cons_of_mem _ h2))]
    rfl

theorem extract_blocks_bash :
    ∀ (pairs : List (Nat × List Char)) (t0 : Nat) (buf : List Char),
      (∀ r ∈ pairs, 10000000 ≤ r.1 ∧ r.1 < 4294967296 ∧ r.2.getLast? = some '\n' ∧
        (∀ x ∈ r.2, x ≠ '\r') ∧ (∀ l ∈ splitLines r.2, parse_timestamp l = none)) →
      extract_bash_aux ((pairs.map bashBlockLines).flatten) t0 buf =
        some ((t0, buf) :: pairs) := by
  intro pairs
  induction pairs with
  | nil =>
    intro t0 buf _
    rfl
  | cons r rest ih =>
    intro t0 buf hall
    obtain ⟨hb1, hb2, hb3, hb4, hb5⟩ := hall r (List.mem_cons_self _ _)
    rw [show ((r :: rest).map bashBlockLines).flatten
        = ('#' :: natToChars r.1) :: (splitLines r.2 ++ (rest.map bashBlockLines).flatten) by
      simp [bashBlockLines]]
    rw [show extract_bash_aux
          (('#' :: natToChars r.1) :: (splitLines r.2 ++ (rest.map bashBlockLines).flatten))
          t0 buf
        = (extract_bash_aux (splitLines r.2 ++ (rest.map bashBlockLines).flatten) r.1 []).map
            (fun recs => (t0, buf) :: recs) by
      simp only [extract_bash_aux, parse_timestamp_marker hb1 hb2]]
    rw [extract_bash_aux_skip _ _ _ _ hb5]
    rw [show ([] : List Char) ++ joinNl (splitLines r.2) = joinNl (splitLines r.2) from rfl]
    rw [joinNl_splitLines hb3 hb4]
    rw [ih r.1 r.2 (fun r2 h2 => hall r2 (List.mem_cons_of_mem _ h2))]
    rfl

theorem is_zsh_extended_false {lines : List (List Char)}
    (h : ∀ l ∈ lines, zshCaptures l = none) : is_zsh_extended lines = false := by
  simp only [is_zsh_extended, List.any_eq_false]
  intro l hl
  rw [h l hl]
  simp

theorem flattenMM_mem {r : Nat × List Char} {m : List (Nat × List (List Char))}
    (h : r ∈ flattenMM m) : ∃ e ∈ m, r.1 = e.1 ∧ r.2 ∈ e.2 := by
  induction m with
  | nil => simp [flattenMM] at h
  | cons b m ih =>
    rw [flattenMM_cons] at h
    rcases List.mem_append.mp h with h2 | h2
    · obtain ⟨c, hc, rfl⟩ := List.mem_map.mp h2
      exact ⟨b, List.mem_cons_self _ _, rfl, hc⟩
    · obtain ⟨e, he, h3⟩ := ih h2
      exact ⟨e, List.mem_cons_of_mem _ he, h3⟩

theorem bashRecordGoodB_spec {t : Nat} {c : List Char} (h : bashRecordGoodB t c = true) :
    10000000 ≤ t ∧ t < 4294967296 ∧ c ≠ [] ∧ c.getLast? = some '\n' ∧
    (∀ x ∈ c, x ≠ '\r') ∧
    (∀ l ∈ splitLines c, parse_timestamp l = none ∧ zshCaptures l = none) := by
  simp only [bashRecordGoodB, Bool.and_eq_true, decide_eq_true_eq, Bool.not_eq_true',
    List.all_eq_true] at h
  obtain ⟨⟨⟨⟨⟨h1, h2⟩, h3⟩, h4⟩, h5⟩, h6⟩ := h
  refine ⟨h1, h2, by simpa using h3, h4, ?_, ?_⟩
  · intro x hx hcon
    subst hcon
    simp at h5
    exact h5 hx
  · intro l hl
    have := h6 l hl
    exact ⟨Option.isNone_iff_eq_none.mp this.1, Option.isNone_iff_eq_none.mp this.2⟩

/-! ### Extended-mode round trip -/

theorem parseU32_natToChars {t : Nat} (h2 : t < 4294967296) :
    parseU32 (natToChars t) = some t := by
  have hne : (natToChars t).isEmpty = false := by
    cases hcon : natToChars t with
    | nil => exact absurd hcon natToChars_ne_nil
    | cons a l => rfl
  simp only [parseU32, hne, Bool.false_eq_true, if_false, natToChars_value, if_pos h2]

theorem joinNl_assemble :
    ∀ (tl : List (List Char)) (h : List Char),
      joinNl (h :: tl) = (h ++ (tl.map (fun l => '\n' :: l)).flatten) ++ ['\n'] := by
  intro tl
  induction tl with
  | nil =>
    intro h
    simp [joinNl]
  | cons l tl ih =>
    intro h
    rw [joinNl_cons, ih l]
    simp

theorem cont_consume :
    ∀ (tl : List (List Char)) (cur : List Char) (L2 : List (List Char)),
      contTail (decide (cur.getLast? = some '\\')) tl = true →
      contCount cur (tl ++ L2) = tl.length ∧
        contAssemble cur (tl ++ L2) = cur ++ (tl.map (fun l => '\n' :: l)).flatten := by
  intro tl
  induction tl with
  | nil =>
    intro cur L2 h
    have hh : ¬ (cur.getLast? = some '\\') := by
      simpa [contTail] using h
    cases L2 with
    | nil => exact ⟨rfl, by simp [contAssemble]⟩
    | cons l rest =>
      refine ⟨?_, ?_⟩
      · simp [contCount, hh]
      · simp [contAssemble, hh]
  | cons l tl ih =>
    intro cur L2 h
    rw [show contTail (decide (cur.getLast? = some '\\')) (l :: tl)
        = (decide (cur.getLast? = some '\\') &&
            contTail (decide ((('\n' :: l) : List Char).getLast? = some '\\')) tl) from rfl] at h
    rw [Bool.and_eq_true, decide_eq_true_eq] at h
    obtain ⟨hcur, htl⟩ := h
    have hgl : (cur ++ '\n' :: l).getLast? = (('\n' :: l) : List Char).getLast? :=
      List.getLast?_append_of_ne_nil _ (by simp)
    have ihh := ih (cur ++ '\n' :: l) L2 (by rwa [hgl])
    refine ⟨?_, ?_⟩
    · show contCount cur (l :: (tl ++ L2)) = tl.length + 1
      rw [show contCount cur (l :: (tl ++ L2))
          = if cur.getLast? = some '\\' then contCount (cur ++ '\n' :: l) (tl ++ L2) + 1 else 0
          from rfl]
      rw [if_pos hcur, ihh.1]
    · show contAssemble cur (l :: (tl ++ L2)) = _
      rw [show contAssemble cur (l :: (tl ++ L2))
          = if cur.getLast? = some '\\' then contAssemble (cur ++ '\n' :: l) (tl ++ L2) else cur
          from rfl]
      rw [if_pos hcur, ihh.2]
      simp

theorem process_zsh_eq :
    ∀ (fuel : Nat) (lines : List (List Char)) (st : St),
      process_zsh_fuel fuel lines st =
        (extract_zsh_fuel fuel lines).map (fun recs => process_records recs st) := by
  intro fuel
  induction fuel with
  | zero =>
    intro lines st
    cases lines <;> rfl
  | succ fuel ih =>
    intro lines st
    cases lines with
    | nil => rfl
    | cons l rest =>
      rcases hz : zshCaptures l with _ | ⟨ds, dur, cap⟩
      · rw [show process_zsh_fuel (fuel + 1) (l :: rest) st = process_zsh_fuel fuel rest st by
          simp only [process_zsh_fuel, hz]]
        rw [show extract_zsh_fuel (fuel + 1) (l :: rest) = extract_zsh_fuel fuel rest by
          simp only [extract_zsh_fuel, hz]]
        exact ih rest st
      · rcases hp : parseU32 ds with _ | ts
        · rw [show process_zsh_fuel (fuel + 1) (l :: rest) st = none by
            simp only [process_zsh_fuel, hz, hp]]
          rw [show extract_zsh_fuel (fuel + 1) (l :: rest) = none by
            simp only [extract_zsh_fuel, hz, hp]]
          rfl
        · rw [show process_zsh_fuel (fuel + 1) (l :: rest) st
              = process_zsh_fuel fuel (rest.drop (contCount (trim cap) rest))
                  (add_command ts (contAssemble (trim cap) rest ++ ['\n']) st) by
            simp only [process_zsh_fuel, hz, hp]]
          rw [show extract_zsh_fuel (fuel + 1) (l :: rest)
              = (extract_zsh_fuel fuel (rest.drop (contCount (trim cap) rest))).map
                  (fun recs => (ts, contAssemble (trim cap) rest ++ ['\n']) :: recs) by
            simp only [extract_zsh_fuel, hz, hp]]
          rw [ih]
          cases extract_zsh_fuel fuel (rest.drop (contCount (trim cap) rest)) <;> rfl

theorem marker_true_eq {t : Nat} :
    marker true t = ':' :: ' ' :: (natToChars t ++ [':', '0', ';']) := rfl

theorem marker_true_append {t : Nat} {h : List Char} :
    marker true t ++ h = ':' :: ' ' :: (natToChars t ++ ':' :: '0' :: ';' :: h) := by
  rw [marker_true_eq]
  simp

theorem marker_true_no_nl {t : Nat} : ∀ x ∈ marker true t, x ≠ '\n' := by
  intro x hx
  rw [marker_true_eq] at hx
  rcases List.mem_cons.mp hx with rfl | hx2
  · decide
  rcases List.mem_cons.mp hx2 with rfl | hx3
  · decide
  rcases List.mem_append.mp hx3 with hx4 | hx4
  · exact (isAsciiDigit_ne (natToChars_all_digits x hx4)).1
  · simp only [List.mem_cons, List.mem_singleton, List.not_mem_nil, or_false] at hx4
    rcases hx4 with rfl | rfl | rfl <;> decide

theorem marker_true_last {t : Nat} : (marker true t).getLast? = some ';' := by
  rw [marker_true_eq]
  rw [show ':' :: ' ' :: (natToChars t ++ [':', '0', ';'])
      = (':' :: ' ' :: (natToChars t ++ [':', '0'])) ++ [';'] by simp]
  exact List.getLast?_concat _

theorem splitLines_zsh_block {t : Nat} {c : List Char} (hne : c ≠ [])
    (hcr : ∀ x ∈ c, x ≠ '\r') :
    splitLines (marker true t ++ c) = zshBlockLines (t, c) := by
  obtain ⟨h, tl, he1, he2⟩ := splitLinesAux_acc_head c hne hcr (marker true t)
    (by rw [marker_true_last]; simp)
  have he1b : splitLines c = h :: tl := he1
  show splitLinesAux (marker true t ++ c) [] = _
  rw [splitLinesAux_prepend _ _ [] marker_true_no_nl, List.nil_append, he2]
  have hz : zshBlockLines (t, c) = (marker true t ++ h) :: tl := by
    show (match splitLines c with
      | [] => [marker true t]
      | h2 :: tl2 => (marker true t ++ h2) :: tl2) = _
    rw [he1b]
  rw [hz]

theorem splitLines_renderZ :
    ∀ (pairs : List (Nat × List Char)),
      (∀ r ∈ pairs, r.2.getLast? = some '\n' ∧ (∀ x ∈ r.2, x ≠ '\r')) →
      splitLines (renderRecords true pairs) = (pairs.map zshBlockLines).flatten := by
  intro pairs
  induction pairs with
  | nil =>
    intro _
    rfl
  | cons r rest ih =>
    intro hall
    obtain ⟨hr1, hr2⟩ := hall r (List.mem_cons_self _ _)
    have hrender : renderRecords true (r :: rest)
        = (marker true r.1 ++ r.2) ++ renderRecords true rest := by
      simp [renderRecords]
    rw [hrender]
    have hend : (marker true r.1 ++ r.2).getLast? = some '\n' := by
      rw [List.getLast?_append_of_ne_nil _ (ne_nil_of_getLast?_nl hr1)]
      exact hr1
    rw [splitLines_append hend,
      splitLines_zsh_block (ne_nil_of_getLast?_nl hr1) hr2,
      ih (fun r2 h2 => hall r2 (List.mem_cons_of_mem _ h2))]
    rfl

theorem zshRecordGoodB_spec {t : Nat} {c : List Char} (h : zshRecordGoodB t c = true) :
    10000000 ≤ t ∧ t < 4294967296 ∧ c ≠ [] ∧ c.getLast? = some '\n' ∧
    (∀ x ∈ c, x ≠ '\r') ∧
    ∃ h0 tl, splitLines c = h0 :: tl ∧ trim h0 = h0 ∧
      contTail (decide (h0.getLast? = some '\\')) tl = true := by
  rcases hs : splitLines c with _ | ⟨h0, tl⟩
  · unfold zshRecordGoodB at h
    rw [hs] at h
    simp at h
  · unfold zshRecordGoodB at h
    rw [hs] at h
    simp only [Bool.and_eq_true, decide_eq_true_eq, Bool.not_eq_true'] at h
    obtain ⟨⟨⟨⟨⟨ha, hb⟩, hc2⟩, hd⟩, he⟩, hf, hg⟩ := h
    refine ⟨ha, hb, by simpa using hc2, hd, ?_, h0, tl, rfl, hf, hg⟩
    intro x hx hcon
    subst hcon
    simp at he
    exact he hx

theorem zshBlockLines_length_pos {r : Nat × List Char} : 1 ≤ (zshBlockLines r).length := by
  rcases hs : splitLines r.2 with _ | ⟨a, b⟩ <;> simp [zshBlockLines, hs]

theorem length_le_flattenZ :
    ∀ (pairs : List (Nat × List Char)),
      pairs.length ≤ ((pairs.map zshBlockLines).flatten).length := by
  intro pairs
  induction pairs with
  | nil => simp
  | cons r rest ih =>
    rw [List.map_cons, List.flatten_cons, List.length_append, List.length_cons]
    have := zshBlockLines_length_pos (r := r)
    omega

theorem extract_blocks_zsh :
    ∀ (pairs : List (Nat × List Char)) (fuel : Nat),
      pairs.length ≤ fuel →
      (∀ r ∈ pairs, zshRecordGoodB r.1 r.2 = true) →
      extract_zsh_fuel fuel ((pairs.map zshBlockLines).flatten) = some pairs := by
  intro pairs
  induction pairs with
  | nil =>
    intro fuel _ _
    cases fuel <;> rfl
  | cons r rest ih =>
    intro fuel hfuel hall
    obtain ⟨fuel, rfl⟩ : ∃ f, fuel = f + 1 := by
      cases fuel with
      | zero => simp at hfuel
      | succ f => exact ⟨f, rfl⟩
    obtain ⟨h1, h2, hne, hnl, hcr, h0, tl, hsplit, htrim, hcont⟩ :=
      zshRecordGoodB_spec (hall r (List.mem_cons_self _ _))
    have hz : zshBlockLines r = (marker true r.1 ++ h0) :: tl := by
      show (match splitLines r.2 with
        | [] => [marker true r.1]
        | h2 :: tl2 => (marker true r.1 ++ h2) :: tl2) = _
      rw [hsplit]
    have hflat : ((r :: rest).map zshBlockLines).flatten
        = (marker true r.1 ++ h0) :: (tl ++ (rest.map zshBlockLines).flatten) := by
      rw [List.map_cons, List.flatten_cons, hz]
      rfl
    rw [hflat]
    have hcap : zshCaptures (marker true r.1 ++ h0) = some (natToChars r.1, ['0'], h0) := by
      rw [marker_true_append]
      exact zshCaptures_marker h1
    have hparse : parseU32 (natToChars r.1) = some r.1 := parseU32_natToChars h2
    have hcc := cont_consume tl h0 ((rest.map zshBlockLines).flatten) hcont
    have hstep : extract_zsh_fuel (fuel + 1)
          ((marker true r.1 ++ h0) :: (tl ++ (rest.map zshBlockLines).flatten))
        = (extract_zsh_fuel fuel
            ((tl ++ (rest.map zshBlockLines).flatten).drop
              (contCount (trim h0) (tl ++ (rest.map zshBlockLines).flatten)))).map
            (fun recs => (r.1, contAssemble (trim h0)
              (tl ++ (rest.map zshBlockLines).flatten) ++ ['\n']) :: recs) := by
      simp only [extract_zsh_fuel, hcap, hparse]
    rw [hstep, htrim, hcc.1, List.drop_left, hcc.2]
    have hbody : (h0 ++ (tl.map (fun l => '\n' :: l)).flatten) ++ ['\n'] = r.2 := by
      rw [← joinNl_assemble, ← hsplit]
      exact joinNl_splitLines hnl hcr
    rw [hbody]
    rw [ih fuel (by simpa using Nat.le_of_succ_le_succ hfuel)
      (fun r2 hr2 => hall r2 (List.mem_cons_of_mem _ hr2))]
    rfl

theorem bash_block_lines_no_capture :
    ∀ (pairs : List (Nat × List Char)),
      (∀ r ∈ pairs, ∀ l ∈ splitLines r.2, zshCaptures l = none) →
      ∀ l ∈ (pairs.map bashBlockLines).flatten, zshCaptures l = none := by
  intro pairs
  induction pairs with
  | nil =>
    intro _ l hl
    simp at hl
  | cons r rest ih =>
    intro hall l hl
    rw [List.map_cons, List.flatten_cons] at hl
    rcases List.mem_append.mp hl with h2 | h2
    · rcases List.mem_cons.mp h2 with rfl | h3
      · exact zshCaptures_not_colon (by decide)
      · exact hall r (List.mem_cons_self _ _) l h3
    · exact ih (fun r2 hr2 => hall r2 (List.mem_cons_of_mem _ hr2)) l h2

theorem is_zsh_extended_true {lines : List (List Char)} {l : List Char}
    (hl : l ∈ lines) (h : (zshCaptures l).isSome = true) : is_zsh_extended lines = true := by
  simp only [is_zsh_extended, List.any_eq_true]
  exact ⟨l, hl, h⟩

theorem allCmds_mem_of {c : List Char} {M : List (Nat × List (List Char))}
    {e : Nat × List (List Char)} (he : e ∈ M) (hc : c ∈ e.2) : c ∈ allCmds M := by
  simp only [allCmds, List.mem_flatten]
  exact ⟨e.2, List.mem_map.mpr ⟨e, he, rfl⟩, hc⟩

/-! ### The second run over emitted output -/

theorem isEmpty_false_of_ne_nil {c : List Char} (h : c ≠ []) : c.isEmpty = false := by
  cases c with
  | nil => exact absurd rfl h
  | cons a l => rfl

theorem allCmds_exists {c : List Char} {M : List (Nat × List (List Char))}
    (h : c ∈ allCmds M) : ∃ e ∈ M, c ∈ e.2 := by
  simp only [allCmds, List.mem_flatten] at h
  obtain ⟨l, hl, hcl⟩ := h
  obtain ⟨e, he, rfl⟩ := List.mem_map.mp hl
  exact ⟨e, he, hcl⟩

theorem run_history_shrinker_bash {input : List Char}
    (hz : is_zsh_extended (splitLines input) = false) :
    run_history_shrinker input =
      (process_bash_history (splitLines input) initSt).map
        (fun st => post_process_output false st.command_map) := by
  show (match (if is_zsh_extended (splitLines input)
        then process_zsh_history (splitLines input) initSt
        else process_bash_history (splitLines input) initSt) with
      | none => none
      | some st => some (post_process_output (is_zsh_extended (splitLines input))
          st.command_map))
    = (process_bash_history (splitLines input) initSt).map
        (fun st => post_process_output false st.command_map)
  rw [hz]
  cases process_bash_history (splitLines input) initSt <;> rfl

theorem run_history_shrinker_zsh {input : List Char}
    (hz : is_zsh_extended (splitLines input) = true) :
    run_history_shrinker input =
      (process_zsh_history (splitLines input) initSt).map
        (fun st => post_process_output true st.command_map) := by
  show (match (if is_zsh_extended (splitLines input)
        then process_zsh_history (splitLines input) initSt
        else process_bash_history (splitLines input) initSt) with
      | none => none
      | some st => some (post_process_output (is_zsh_extended (splitLines input))
          st.command_map))
    = (process_zsh_history (splitLines input) initSt).map
        (fun st => post_process_output true st.command_map)
  rw [hz]
  cases process_zsh_history (splitLines input) initSt <;> rfl

/-- Claim C2, amended: the pipeline is not idempotent on arbitrary input, but
it is a fixed point on its own normalized output.  For either output format,
take any command map whose keys are strictly ascending `u32` timestamps of at
least eight digits, whose value vectors are nonempty, whose stored commands
are newline-terminated, carriage-return-free, safe to re-split (no interior
line resembling a timestamp marker in plain format; the backslash-continuation
chain shape in extended format), already fixed by `filter_command`, not
excluded, and pairwise distinct.  Then running the whole pipeline on the
emitted text of that map reproduces exactly that text. -/
theorem pipeline_idempotent_on_normalized_output :
    ∀ (z : Bool) (M : List (Nat × List (List Char))),
      keysStrictSorted M = true →
      noEmptyVals M = true →
      (∀ e ∈ M, ∀ c ∈ e.2,
        (if z then zshRecordGoodB e.1 c else bashRecordGoodB e.1 c) = true ∧
        filter_command c = c ∧ should_exclude_cmd c = false) →
      pairwiseDistinct (allCmds M) = true →
      run_history_shrinker (post_process_output z M) =
        some (post_process_output z M) := by
  intro z M hsort hne hall hdist
  have hout : post_process_output z M = renderRecords z (flattenMM M) :=
    post_process_output_eq_render
  have hgood : ∀ r ∈ flattenMM M,
      (if z then zshRecordGoodB r.1 r.2 else bashRecordGoodB r.1 r.2) = true ∧
      filter_command r.2 = r.2 ∧ should_exclude_cmd r.2 = false := by
    intro r hr
    obtain ⟨e, he, h1, h2⟩ := flattenMM_mem hr
    have := hall e he r.2 h2
    rw [h1]
    exact this
  have hcmds : ∀ c ∈ allCmds M, c.isEmpty = false ∧ filter_command c = c ∧
      should_exclude_cmd c = false ∧ memL c initSt.commands_seen = false := by
    intro c hc
    obtain ⟨e, he, hc2⟩ := allCmds_exists hc
    obtain ⟨hg, hf, hx⟩ := hall e he c hc2
    refine ⟨?_, hf, hx, rfl⟩
    cases z with
    | false =>
      simp only [Bool.false_eq_true, if_false] at hg
      exact isEmpty_false_of_ne_nil (bashRecordGoodB_spec hg).2.2.1
    | true =>
      simp only [if_true] at hg
      exact isEmpty_false_of_ne_nil (zshRecordGoodB_spec hg).2.2.1
  have hmap : (process_records (flattenMM M) initSt).command_map = M := by
    have := reprocess_all M [] initSt rfl
      (fun e2 he2 _ _ => absurd he2 (List.not_mem_nil _)) hsort hne hcmds hdist
    simpa using this
  cases z with
  | false =>
    have hgB : ∀ r ∈ flattenMM M, bashRecordGoodB r.1 r.2 = true := by
      intro r hr
      have := (hgood r hr).1
      simpa using this
    have hnl : ∀ r ∈ flattenMM M, r.2.getLast? = some '\n' :=
      fun r hr => (bashRecordGoodB_spec (hgB r hr)).2.2.2.1
    have hsplitB := splitLines_renderB (flattenMM M) hnl
    have hnocap : ∀ l ∈ ((flattenMM M).map bashBlockLines).flatten, zshCaptures l = none :=
      bash_block_lines_no_capture (flattenMM M)
        (fun r hr l hl => ((bashRecordGoodB_spec (hgB r hr)).2.2.2.2.2 l hl).2)
    have hdetect : is_zsh_extended (splitLines (renderRecords false (flattenMM M)))
        = false := by
      rw [hsplitB]
      exact is_zsh_extended_false hnocap
    have hconds : ∀ r ∈ flattenMM M, 10000000 ≤ r.1 ∧ r.1 < 4294967296 ∧
        r.2.getLast? = some '\n' ∧ (∀ x ∈ r.2, x ≠ '\r') ∧
        (∀ l ∈ splitLines r.2, parse_timestamp l = none) := by
      intro r hr
      obtain ⟨a, b, _, d, e2, f⟩ := bashRecordGoodB_spec (hgB r hr)
      exact ⟨a, b, d, e2, fun l hl => (f l hl).1⟩
    have hrun : process_bash_history (splitLines (renderRecords false (flattenMM M))) initSt
        = some (process_records (flattenMM M) initSt) := by
      show process_bash_history_aux (splitLines (renderRecords false (flattenMM M)))
          0 [] initSt = _
      rw [process_bash_eq, hsplitB, extract_blocks_bash (flattenMM M) 0 [] hconds]
      show some (process_records (flattenMM M) (add_command 0 [] initSt)) = _
      rw [add_command_empty]
    rw [hout, run_history_shrinker_bash hdetect, hrun]
    show some (post_process_output false
        (process_records (flattenMM M) initSt).command_map) = _
    rw [hmap]
    exact congrArg some hout
  | true =>
    have hgZ : ∀ r ∈ flattenMM M, zshRecordGoodB r.1 r.2 = true := by
      intro r hr
      have := (hgood r hr).1
      simpa using this
    have hnlcr : ∀ r ∈ flattenMM M, r.2.getLast? = some '\n' ∧ (∀ x ∈ r.2, x ≠ '\r') := by
      intro r hr
      obtain ⟨_, _, _, d, e2, _⟩ := zshRecordGoodB_spec (hgZ r hr)
      exact ⟨d, e2⟩
    have hsplitZ := splitLines_renderZ (flattenMM M) hnlcr
    cases M with
    | nil =>
      show run_history_shrinker [] = some []
      rfl
    | cons e M2 =>
      have he2 : e.2 ≠ [] := by
        intro hcon
        simp [noEmptyVals, hcon] at hne
      obtain ⟨c0, cs, hc0⟩ := List.exists_cons_of_ne_nil he2
      have hr0 : ((e.1, c0) : Nat × List Char) ∈ flattenMM (e :: M2) := by
        rw [flattenMM_cons]
        apply List.mem_append_left
        rw [hc0]
        exact List.mem_map.mpr ⟨c0, List.mem_cons_self _ _, rfl⟩
      obtain ⟨hZ1, hZ2, hZne, hZnl, hZcr, h0, tl0, hsplit0, htrim0, hcont0⟩ :=
        zshRecordGoodB_spec (hgZ _ hr0)
      have hblock0 : zshBlockLines (e.1, c0) = (marker true e.1 ++ h0) :: tl0 := by
        show (match splitLines c0 with
          | [] => [marker true e.1]
          | h2 :: tl2 => (marker true e.1 ++ h2) :: tl2) = _
        rw [hsplit0]
      have hpairs : flattenMM (e :: M2)
          = ((e.1, c0) : Nat × List Char) :: (cs.map (fun c => (e.1, c)) ++ flattenMM M2) := by
        rw [flattenMM_cons, hc0]
        rfl
      have hline : (marker true e.1 ++ h0)
          ∈ splitLines (renderRecords true (flattenMM (e :: M2))) := by
        rw [hsplitZ, hpairs, List.map_cons, List.flatten_cons, hblock0]
        exact List.mem_append_left _ (List.mem_cons_self _ _)
      have hcapsome : (zshCaptures (marker true e.1 ++ h0)).isSome = true := by
        rw [marker_true_append, zshCaptures_marker hZ1]
        rfl
      have hdetect := is_zsh_extended_true hline hcapsome
      have hrun : process_zsh_history
            (splitLines (renderRecords true (flattenMM (e :: M2)))) initSt
          = some (process_records (flattenMM (e :: M2)) initSt) := by
        show process_zsh_fuel (splitLines (renderRecords true (flattenMM (e :: M2)))).length
            (splitLines (renderRecords true (flattenMM (e :: M2)))) initSt = _
        rw [process_zsh_eq, hsplitZ,
          extract_blocks_zsh (flattenMM (e :: M2)) _ (length_le_flattenZ _) hgZ]
        rfl
      rw [hout, run_history_shrinker_zsh hdetect, hrun]
      show some (post_process_output true
          (process_records (flattenMM (e :: M2)) initSt).command_map) = _
      rw [hmap]
      exact congrArg some hout

/-- Claim C2, amended, witness: the theorem applied to the one-record plain
map `{10000000 ↦ "whoami\n"}`; the emitted text `"#10000000\nwhoami\n"` runs
through the pipeline unchanged. -/
theorem pipeline_idempotent_on_normalized_output_witness :
    run_history_shrinker
        (post_process_output false [(10000000, [("whoami\n").data])]) =
      some (post_process_output false [(10000000, [("whoami\n").data])]) :=
  pipeline_idempotent_on_normalized_output false [(10000000, [("whoami\n").data])]
    (by decide) (by decide) (by decide) (by decide)

end HistoryShrinker
